import Mathlib

/-!
Verification development for a PrefixSpan sequential-pattern miner.

The program mines frequent sequential patterns from a database of token
sequences.  Tokens are signed integers: positive values are item ids,
`-1` separates itemsets, `-2` terminates a sequence.  The development
below is a shallow embedding of `src/algo/prefixspan.py` and
`src/utils/sequence_utils.py`: each Python function is translated into a
pure Lean function, the mutable `self._buffer` array becomes an explicit
`List Int` threaded through a state record, and the insertion-ordered
Python dicts become association lists.  File output is modelled by the
ordered list of emitted pattern records.
-/

namespace PrefixSpanModel

/-- Token type: positive item id, `-1` itemset separator, `-2` terminator. -/
abbrev Tok := Int

/-- Mirrors `PseudoSequence` from `utils/sequence_utils.py`: a cursor
`(sequence_id, index_first_item)` into one database entry. -/
structure PseudoSequence where
  sequence_id : Nat
  index_first_item : Nat
deriving Repr, DecidableEq

/-- Insertion-ordered dict `item -> list of PseudoSequence`, as used for
`items_to_pseqs`, `map_postfix` and `map_normal` in `prefixspan.py`. -/
abbrev AMap := List (Tok × List PseudoSequence)

/-- Insertion-ordered dict `item -> list of sequence ids`
(`map_item_to_sids` in `prefixspan.py`). -/
abbrev SidMap := List (Tok × List Nat)

/-- The Python idiom `lst = d.setdefault(tok, []); if not lst or
lst[-1].sequence_id != sid: lst.append(ps)`: append `ps` unless the list
already ends with an entry for the same sequence id. -/
def dedupAppend (l : List PseudoSequence) (ps : PseudoSequence) : List PseudoSequence :=
  match l.getLast? with
  | none => [ps]
  | some lastPs => if lastPs.sequence_id ≠ ps.sequence_id then l ++ [ps] else l

/-- Record `ps` under key `tok` in an insertion-ordered map, with the
last-entry dedup check of `dedupAppend`. -/
def amapRecord : AMap → Tok → PseudoSequence → AMap
  | [], tok, ps => [(tok, dedupAppend [] ps)]
  | (k, v) :: rest, tok, ps =>
      if k = tok then (k, dedupAppend v ps) :: rest else (k, v) :: amapRecord rest tok ps

/-- Lookup in an `AMap`; missing keys give `[]` (Python `d.get(tok, [])`). -/
def amapGet : AMap → Tok → List PseudoSequence
  | [], _ => []
  | (k, v) :: rest, tok => if k = tok then v else amapGet rest tok

/-- Python `m.setdefault(tok, []).append(sid)` on the item -> sids dict. -/
def sidMapAppend : SidMap → Tok → Nat → SidMap
  | [], tok, sid => [(tok, [sid])]
  | (k, v) :: rest, tok, sid =>
      if k = tok then (k, v ++ [sid]) :: rest else (k, v) :: sidMapAppend rest tok sid

/-- Lookup in a `SidMap`; missing keys give `[]` (Python `m.get(tok, ())`). -/
def sidMapGet : SidMap → Tok → List Nat
  | [], _ => []
  | (k, v) :: rest, tok => if k = tok then v else sidMapGet rest tok

/-- A pruned database entry: `none` models the Python `None` slot, `some`
a well-formed token list. -/
abbrev Database := List (Option (List Tok))

/-- `self._db.get(sid)` on a pruned database.  Out-of-range ids give
`none`; the search only uses ids produced by the frequent-item pass. -/
def dbGet (db : Database) (sid : Nat) : Option (List Tok) :=
  db.getD sid none

/-- One emitted output record: the decoded itemsets of the pattern and
its support count (the Python line `"<pattern> #SUP: <support>"`). -/
structure PatRecord where
  itemsets : List (List Tok)
  support : Nat
deriving Repr, DecidableEq

/-- The mutable state of a run: the shared 2000-token scratch buffer
`self._buffer`, the running `self.pattern_count`, the ordered list of
records written to the output file, and `hi`, an instrumentation field
recording an upper bound on every buffer index accessed so far. -/
structure MState where
  buffer : List Tok
  patternCount : Nat
  records : List PatRecord
  hi : Nat
deriving Repr

/-- Write `v` at buffer index `i` (Python `self._buffer[i] = v`),
recording the accessed index in `hi`. -/
def MState.bset (st : MState) (i : Nat) (v : Tok) : MState :=
  { st with buffer := st.buffer.set i v, hi := max st.hi i }

/-- Record a buffer read at index `i` in the instrumentation field. -/
def MState.touch (st : MState) (i : Nat) : MState :=
  { st with hi := max st.hi i }

/-- Initial state: `self._buffer = [0] * 2000`, zero patterns, no output. -/
def initState : MState :=
  { buffer := List.replicate 2000 0, patternCount := 0, records := [], hi := 0 }

/-- `_pattern_length_in_buffer`: number of positive tokens among buffer
positions `0 .. tokens_end_idx`. -/
def patternLengthInBuffer (buf : List Tok) (tokensEndIdx : Nat) : Nat :=
  (buf.take (tokensEndIdx + 1)).countP (fun t => decide (0 < t))

/-- The decoding loop of `_write_pattern_tokens`: group maximal runs of
positive tokens, flushing the current itemset at each `-1`. -/
def decodeTokens : List Tok → List Tok → List (List Tok)
  | [], cur => if cur.isEmpty then [] else [cur]
  | tok :: rest, cur =>
      if tok = -1 then
        if cur.isEmpty then decodeTokens rest [] else cur :: decodeTokens rest []
      else if 0 < tok then decodeTokens rest (cur ++ [tok])
      else decodeTokens rest cur

/-- Decode buffer positions `0 .. tokensEndIdx` into a list of itemsets. -/
def decodeBuffer (buf : List Tok) (tokensEndIdx : Nat) : List (List Tok) :=
  decodeTokens (buf.take (tokensEndIdx + 1)) []

/-- `_write_pattern_tokens`: read the buffer prefix; if the pattern has at
least `minLen` items, bump the counter and emit one record whose support
is the size of the projected set. -/
def writePatternTokens (minLen : Nat) (st : MState) (tokensEndIdx : Nat)
    (pseudoSequences : List PseudoSequence) : MState :=
  let st := st.touch tokensEndIdx
  if patternLengthInBuffer st.buffer tokensEndIdx < minLen then st
  else
    { st with
      patternCount := st.patternCount + 1,
      records := st.records ++ [⟨decodeBuffer st.buffer tokensEndIdx, pseudoSequences.length⟩] }

/-- `_write_single`: emit a length-1 pattern unless `min_len > 1`. -/
def writeSingle (minLen : Nat) (st : MState) (item : Tok) (support : Nat) : MState :=
  if 1 < minLen then st
  else
    { st with
      patternCount := st.patternCount + 1,
      records := st.records ++ [⟨[[item]], support⟩] }

/-- Token loop of `_find_sequences_containing_items` for one sequence:
thread the per-sequence seen set, the per-itemset running count, the
item -> sids dict and the multi-item flag; stop at the terminator. -/
def findSeqScan (sid : Nat) : List Tok → List Tok → Nat → SidMap → Bool → SidMap × Bool
  | [], _, _, m, multi => (m, multi)
  | tok :: rest, seen, cnt, m, multi =>
      if 0 < tok then
        let m' := if tok ∈ seen then m else sidMapAppend m tok sid
        let seen' := if tok ∈ seen then seen else tok :: seen
        findSeqScan sid rest seen' (cnt + 1) m' (multi || decide (1 < cnt + 1))
      else if tok = -1 then findSeqScan sid rest seen 0 m multi
      else if tok = -2 then (m, multi)
      else findSeqScan sid rest seen cnt m multi

/-- `_find_sequences_containing_items`: one pass over the whole database
producing the item -> containing-sequence-ids dict and the flag marking
the presence of an itemset with more than one item. -/
def findItems (db : List (List Tok)) : SidMap × Bool :=
  (List.range db.length).foldl
    (fun acc sid => findSeqScan sid (db.getD sid []) [] 0 acc.1 acc.2)
    ([], false)

/-- Pruning loop of `_prefixspan_with_single_items`: keep frequent items,
drop separators, stop at the terminator (which is re-emitted). -/
def pruneTokensSingle (f : Tok → Bool) : List Tok → List Tok
  | [] => []
  | tok :: rest =>
      if 0 < tok then
        if f tok then tok :: pruneTokensSingle f rest else pruneTokensSingle f rest
      else if tok = -2 then [-2]
      else pruneTokensSingle f rest

/-- In-place pruning of one sequence in the single-item path: the entry
becomes `none` exactly when no item survives (`write_pos == 0`). -/
def pruneSeqSingle (f : Tok → Bool) (seq : List Tok) : Option (List Tok) :=
  let out := pruneTokensSingle f seq
  if 1 < out.length then some out else none

/-- Pruning loop of `_prefixspan_with_multiple_items`: keep frequent
items, keep a separator only when the itemset it closes kept at least one
item (`count_in_itemset > 0`), stop at the terminator. -/
def pruneTokensMulti (f : Tok → Bool) (cnt : Nat) : List Tok → List Tok
  | [] => []
  | tok :: rest =>
      if 0 < tok then
        if f tok then tok :: pruneTokensMulti f (cnt + 1) rest
        else pruneTokensMulti f cnt rest
      else if tok = -1 then
        if 0 < cnt then -1 :: pruneTokensMulti f 0 rest
        else pruneTokensMulti f cnt rest
      else if tok = -2 then [-2]
      else pruneTokensMulti f cnt rest

/-- In-place pruning of one sequence in the multi-item path. -/
def pruneSeqMulti (f : Tok → Bool) (seq : List Tok) : Option (List Tok) :=
  let out := pruneTokensMulti f 0 seq
  if 1 < out.length then some out else none

/-- `_build_projected_single_items`, inner while loop: first occurrence
of `item` before the terminator; project just past it unless the next
token is the terminator. -/
def projSingleIdx (item : Tok) : Nat → List Tok → Option Nat
  | _, [] => none
  | j, tok :: rest =>
      if tok = -2 then none
      else if tok = item then
        if rest.headD (-2) = -2 then none else some (j + 1)
      else projSingleIdx item (j + 1) rest

/-- `_build_projected_single_items`: one pseudo-sequence per sid whose
sequence still holds something after the first occurrence of `item`. -/
def buildProjSingle (db : Database) (item : Tok) (sids : List Nat) : List PseudoSequence :=
  sids.foldl
    (fun acc sid =>
      match dbGet db sid with
      | none => acc
      | some seq =>
        match projSingleIdx item 0 seq with
        | some j => acc ++ [⟨sid, j⟩]
        | none => acc)
    []

/-- `_build_projected_first_time_multi`, inner while loop: the match is a
dead end when followed by the terminator, or by a separator then the
terminator. -/
def projMultiIdx (item : Tok) : Nat → List Tok → Option Nat
  | _, [] => none
  | j, tok :: rest =>
      if tok = -2 then none
      else if tok = item then
        match rest with
        | [] => none
        | a :: rest2 =>
          if a = -2 then none
          else if a = -1 then
            if rest2.headD 0 = -2 then none else some (j + 1)
          else some (j + 1)
      else projMultiIdx item (j + 1) rest

/-- `_build_projected_first_time_multi` over the sid list. -/
def buildProjMulti (db : Database) (item : Tok) (sids : List Nat) : List PseudoSequence :=
  sids.foldl
    (fun acc sid =>
      match dbGet db sid with
      | none => acc
      | some seq =>
        match projMultiIdx item 0 seq with
        | some j => acc ++ [⟨sid, j⟩]
        | none => acc)
    []

/-- Candidate-collection loop of `_recursion_single_items` for one
pseudo-sequence: record every positive token (with the last-entry dedup
check) until the terminator. -/
def scanSeqSingle (sid : Nat) : Nat → List Tok → AMap → AMap
  | _, [], m => m
  | i, tok :: rest, m =>
      if tok = -2 then m
      else if 0 < tok then scanSeqSingle sid (i + 1) rest (amapRecord m tok ⟨sid, i + 1⟩)
      else scanSeqSingle sid (i + 1) rest m

/-- Candidate collection of `_recursion_single_items` over the projected
database. -/
def scanSingle (db : Database) (database : List PseudoSequence) : AMap :=
  database.foldl
    (fun m ps =>
      let seq := (dbGet db ps.sequence_id).getD []
      scanSeqSingle ps.sequence_id ps.index_first_item (seq.drop ps.index_first_item) m)
    []

/-- `_recursion_single_items` after candidate collection: iterate over
the dict entries in insertion order; every item meeting the threshold
gets a separator and the item written into the buffer, is emitted, and is
recursed into while `k < max_len`.  The extra `fuel` argument makes the
recursion structural; the source recursion is bounded by the very same
`k < max_len` guard mirrored here, so any `fuel ≥ max_len` is never
exhausted (the `0` arm is dead under the call discipline of `run`). -/
def goSingle (db : Database) (minsup : Int) (maxLen minLen : Nat) :
    Nat → Nat → Nat → List (Tok × List PseudoSequence) → MState → MState
  | 0, _, _, _, st => st
  | fuel + 1, k, lastBufPos, entries, st =>
      entries.foldl
        (fun st e =>
          if minsup ≤ (e.2.length : Int) then
            let stA := (st.bset (lastBufPos + 1) (-1)).bset (lastBufPos + 2) e.1
            let stB := writePatternTokens minLen stA (lastBufPos + 2) e.2
            if k < maxLen then
              goSingle db minsup maxLen minLen fuel (k + 1) (lastBufPos + 2)
                (scanSingle db e.2) stB
            else stB
          else st)
        st

/-- `_recursion_single_items` at one level: collect candidates, then
process them. -/
def recursionSingleItems (db : Database) (minsup : Int) (maxLen minLen fuel : Nat)
    (database : List PseudoSequence) (k lastBufPos : Nat) (st : MState) : MState :=
  goSingle db minsup maxLen minLen fuel k lastBufPos (scanSingle db database) st

/-- `_prefixspan_with_single_items`: prune the database in place, then
for each frequent item emit the length-1 pattern and, when allowed by
`max_len`, seed the buffer and recurse. -/
def prefixspanSingle (m : SidMap) (minsup : Int) (maxLen minLen : Nat)
    (db0 : List (List Tok)) : MState :=
  let f := fun tok => decide (minsup ≤ ((sidMapGet m tok).length : Int))
  let db : Database := db0.map (pruneSeqSingle f)
  m.foldl
    (fun st e =>
      if minsup ≤ (e.2.length : Int) then
        let st := writeSingle minLen st e.1 e.2.length
        if 1 < maxLen then
          let st := st.bset 0 e.1
          recursionSingleItems db minsup maxLen minLen maxLen
            (buildProjSingle db e.1 e.2) 2 0 st
        else st
      else st)
    initState

/-- Scan state of the token loop in `_recursion_multi`, for one
pseudo-sequence: the two candidate dicts (`map_postfix`, `map_normal`),
the `current_itemset_is_postfix` and `is_first_itemset` flags, the match
cursor `position_to_match`, and `hiR`, an instrumentation upper bound on
the buffer indices read through the match cursor. -/
structure ScanMulti where
  mapPost : AMap
  mapNorm : AMap
  inPostfixItemset : Bool
  isFirstItemset : Bool
  ptm : Nat
  hiR : Nat
deriving Repr

/-- One item or separator token of the `_recursion_multi` scan loop.
A positive token is recorded in `map_postfix` while still inside the
postfix itemset and in `map_normal` otherwise; while inside the postfix
itemset and past the first itemset of the scan it is also recorded in
`map_normal`; outside the postfix itemset the match cursor compares the
token with the buffer and re-enters postfix mode once the whole last
itemset of the pattern has been re-matched.  A separator clears both
flags and resets the cursor. -/
def scanMultiTok (buf : List Tok) (lastBufPos firstPosLast : Nat) (sid i : Nat)
    (tok : Tok) (s : ScanMulti) : ScanMulti :=
  if 0 < tok then
    let s :=
      if s.inPostfixItemset then
        { s with mapPost := amapRecord s.mapPost tok ⟨sid, i + 1⟩ }
      else
        { s with mapNorm := amapRecord s.mapNorm tok ⟨sid, i + 1⟩ }
    let s :=
      if s.inPostfixItemset ∧ ¬s.isFirstItemset then
        { s with mapNorm := amapRecord s.mapNorm tok ⟨sid, i + 1⟩ }
      else s
    if ¬s.inPostfixItemset then
      let s := { s with hiR := max s.hiR s.ptm }
      if buf.getD s.ptm 0 = tok then
        if lastBufPos < s.ptm + 1 then
          { s with ptm := s.ptm + 1, inPostfixItemset := true }
        else { s with ptm := s.ptm + 1 }
      else s
    else s
  else if tok = -1 then
    { s with isFirstItemset := false, inPostfixItemset := false, ptm := firstPosLast }
  else s

/-- Token loop of `_recursion_multi` for one pseudo-sequence: apply
`scanMultiTok` to every token until the terminator. -/
def scanSeqMulti (buf : List Tok) (lastBufPos firstPosLast : Nat) (sid : Nat) :
    Nat → List Tok → ScanMulti → ScanMulti
  | _, [], s => s
  | i, tok :: rest, s =>
      if tok = -2 then s
      else
        scanSeqMulti buf lastBufPos firstPosLast sid (i + 1) rest
          (scanMultiTok buf lastBufPos firstPosLast sid i tok s)

/-- Candidate collection of `_recursion_multi` over the projected
database: per entry, initialise the scan state (`prev_tok != -1` decides
whether the entry starts inside the postfix itemset) and run the token
loop; the dicts and the read bound accumulate across entries. -/
def scanMultiDb (db : Database) (buf : List Tok) (lastBufPos firstPosLast : Nat)
    (database : List PseudoSequence) : AMap × AMap × Nat :=
  database.foldl
    (fun acc ps =>
      let seq := (dbGet db ps.sequence_id).getD []
      let prevTok := seq.getD (ps.index_first_item - 1) 0
      let s0 : ScanMulti :=
        ⟨acc.1, acc.2.1, decide (prevTok ≠ -1), true, firstPosLast, acc.2.2⟩
      let s :=
        scanSeqMulti buf lastBufPos firstPosLast ps.sequence_id ps.index_first_item
          (seq.drop ps.index_first_item) s0
      (s.mapPost, s.mapNorm, s.hiR))
    ([], [], 0)

/-- Backward walk `while fp > 0 and buffer[fp-1] != -1: fp -= 1` locating
the first position of the last itemset written in the buffer. -/
def firstPosLastItemsetOf (buf : List Tok) : Nat → Nat
  | 0 => 0
  | p + 1 => if buf.getD p 0 ≠ -1 then firstPosLastItemsetOf buf p else p + 1

/-- The level preamble of `_recursion_multi`: locate the last itemset,
scan the projected database, and merge the buffer reads performed by the
walk (indices up to `lastBufPos - 1`) and by the scan into `hi`. -/
def multiScanLevel (db : Database) (lastBufPos : Nat) (st : MState)
    (database : List PseudoSequence) : AMap × AMap × MState :=
  let fp := firstPosLastItemsetOf st.buffer lastBufPos
  let r := scanMultiDb db st.buffer lastBufPos fp database
  (r.1, r.2.1, (st.touch (lastBufPos - 1)).touch r.2.2)

/-- The extension loops of `_recursion_multi`: first every i-extension
candidate meeting the threshold (item appended to the last itemset, no
separator), then every s-extension candidate (separator plus item); each
is emitted and recursed into while `k < max_len`.  Fuel as in
`goSingle`. -/
def goMulti (db : Database) (minsup : Int) (maxLen minLen : Nat) :
    Nat → Nat → Nat → AMap → AMap → MState → MState
  | 0, _, _, _, _, st => st
  | fuel + 1, k, lastBufPos, mapPost, mapNorm, st =>
      let st1 := mapPost.foldl
        (fun st e =>
          if minsup ≤ (e.2.length : Int) then
            let newPos := lastBufPos + 1
            let stA := st.bset newPos e.1
            let stB := writePatternTokens minLen stA newPos e.2
            if k < maxLen then
              let lv := multiScanLevel db newPos stB e.2
              goMulti db minsup maxLen minLen fuel (k + 1) newPos lv.1 lv.2.1 lv.2.2
            else stB
          else st)
        st
      mapNorm.foldl
        (fun st e =>
          if minsup ≤ (e.2.length : Int) then
            let newPos := lastBufPos + 1
            let stA := (st.bset newPos (-1)).bset (newPos + 1) e.1
            let stB := writePatternTokens minLen stA (newPos + 1) e.2
            if k < maxLen then
              let lv := multiScanLevel db (newPos + 1) stB e.2
              goMulti db minsup maxLen minLen fuel (k + 1) (newPos + 1) lv.1 lv.2.1 lv.2.2
            else stB
          else st)
        st1

/-- `_recursion_multi` at one level: preamble then extension loops. -/
def recursionMulti (db : Database) (minsup : Int) (maxLen minLen fuel : Nat)
    (database : List PseudoSequence) (k lastBufPos : Nat) (st : MState) : MState :=
  let lv := multiScanLevel db lastBufPos st database
  goMulti db minsup maxLen minLen fuel k lastBufPos lv.1 lv.2.1 lv.2.2

/-- `_prefixspan_with_multiple_items`: itemset-preserving pruning, then
the same frequent-item loop as the flat path but recursing through
`_recursion_multi`. -/
def prefixspanMulti (m : SidMap) (minsup : Int) (maxLen minLen : Nat)
    (db0 : List (List Tok)) : MState :=
  let f := fun tok => decide (minsup ≤ ((sidMapGet m tok).length : Int))
  let db : Database := db0.map (pruneSeqMulti f)
  m.foldl
    (fun st e =>
      if minsup ≤ (e.2.length : Int) then
        let st := writeSingle minLen st e.1 e.2.length
        if 1 < maxLen then
          let st := st.bset 0 e.1
          recursionMulti db minsup maxLen minLen maxLen
            (buildProjMulti db e.1 e.2) 2 0 st
        else st
      else st)
    initState

/-- Threshold conversion in `PrefixSpan.run`:
`int(ceil(minsup_relative * sequence_count))`, raised to 1 when
non-positive. -/
def minsupAbsOf (minsupRelative : ℚ) (sequenceCount : Nat) : Int :=
  let m := ⌈minsupRelative * (sequenceCount : ℚ)⌉
  if m ≤ 0 then 1 else m

/-- The observable outcome of a run: the pattern count and the emitted
records returned to the caller, plus the absolute threshold held in
`self._minsupp_abs` and the instrumentation bound `hi` on accessed
buffer indices. -/
structure RunResult where
  patternCount : Nat
  records : List PatRecord
  minsupAbs : Int
  hi : Nat
deriving Repr

/-- `PrefixSpan.run` followed by `_prefixspan`: convert the relative
threshold, run the frequent-item pass, and dispatch on the multi-item
flag to exactly one of the two growth algorithms.  `maxLen` and `minLen`
are the constructor arguments `maximum_pattern_length` and `min_len`
(the latter clamped with `max(1, ...)` as in `__init__`). -/
def run (db0 : List (List Tok)) (minsupRelative : ℚ) (maxLen minLen : Nat) : RunResult :=
  let minLenE := max 1 minLen
  let minsup := minsupAbsOf minsupRelative db0.length
  let fr := findItems db0
  let st :=
    if fr.2 then prefixspanMulti fr.1 minsup maxLen minLenE db0
    else prefixspanSingle fr.1 minsup maxLen minLenE db0
  ⟨st.patternCount, st.records, minsup, st.hi⟩

/-! ### Helper lemmas for unfolding `run` -/

/-- Unfold `run` on a database whose multi-item flag is false. -/
theorem run_single_eq (db0 : List (List Tok)) (s : ℚ) (maxLen minLen : Nat) (ms : Int)
    (hflag : (findItems db0).2 = false) (hms : minsupAbsOf s db0.length = ms) :
    run db0 s maxLen minLen =
      ⟨(prefixspanSingle (findItems db0).1 ms maxLen (max 1 minLen) db0).patternCount,
       (prefixspanSingle (findItems db0).1 ms maxLen (max 1 minLen) db0).records,
       ms,
       (prefixspanSingle (findItems db0).1 ms maxLen (max 1 minLen) db0).hi⟩ := by
  simp only [run, hflag, hms, Bool.false_eq_true, if_false]

/-- Unfold `run` on a database whose multi-item flag is true. -/
theorem run_multi_eq (db0 : List (List Tok)) (s : ℚ) (maxLen minLen : Nat) (ms : Int)
    (hflag : (findItems db0).2 = true) (hms : minsupAbsOf s db0.length = ms) :
    run db0 s maxLen minLen =
      ⟨(prefixspanMulti (findItems db0).1 ms maxLen (max 1 minLen) db0).patternCount,
       (prefixspanMulti (findItems db0).1 ms maxLen (max 1 minLen) db0).records,
       ms,
       (prefixspanMulti (findItems db0).1 ms maxLen (max 1 minLen) db0).hi⟩ := by
  simp only [run, hflag, hms, if_true]

/-! ### C6: threshold conversion -/

/-- C6.  Threshold conversion: for every relative support `s` in `[0,1]`
and every sequence count `N` (the length of the loaded database), the
absolute minimum support stored by the run equals `max 1 ⌈s * N⌉`. -/
theorem minsup_abs_eq_max_one_ceil (db0 : List (List Tok)) (s : ℚ) (maxLen minLen : Nat)
    (h0 : 0 ≤ s) (h1 : s ≤ 1) :
    (run db0 s maxLen minLen).minsupAbs = max 1 ⌈s * (db0.length : ℚ)⌉ := by
  have hrun : (run db0 s maxLen minLen).minsupAbs = minsupAbsOf s db0.length := by
    simp only [run]
  rw [hrun]
  unfold minsupAbsOf
  rcases le_or_lt (⌈s * (db0.length : ℚ)⌉ : Int) 0 with hle | hlt
  · simp only [hle, if_pos]
    omega
  · rw [if_neg (by omega)]
    omega

/-- Witness for `minsup_abs_eq_max_one_ceil` at `s = 1/2`, `N = 3`. -/
theorem minsup_abs_eq_max_one_ceil_witness :
    0 ≤ (1 / 2 : ℚ) ∧ (1 / 2 : ℚ) ≤ 1 ∧
      (run [[-2], [-2], [-2]] (1 / 2) 5 1).minsupAbs =
        max 1 ⌈(1 / 2 : ℚ) * (([[-2], [-2], [-2]] : List (List Tok)).length : ℚ)⌉ :=
  ⟨by norm_num, by norm_num,
    minsup_abs_eq_max_one_ceil [[-2], [-2], [-2]] (1 / 2) 5 1 (by norm_num) (by norm_num)⟩

/-! ### C1: flat-path end-to-end example -/

/-- C1.  Flat-path end-to-end example: on the database
`[1,-1,2,-1,3,-1,-2]`, `[1,-1,3,-1,-2]` with relative support `1`
(absolute threshold 2), minimum pattern length 1 and any maximum pattern
length at least 2, the run emits exactly the three records `{1}` (support
2), `{1}{3}` (support 2) and `{3}` (support 2), and returns pattern
count 3.  Item 2 (support 1) is pruned. -/
theorem prefixspan_flat_end_to_end (maxLen : Nat) (h : 2 ≤ maxLen) :
    (run [[1, -1, 2, -1, 3, -1, -2], [1, -1, 3, -1, -2]] 1 maxLen 1).patternCount = 3 ∧
    (run [[1, -1, 2, -1, 3, -1, -2], [1, -1, 3, -1, -2]] 1 maxLen 1).records =
      [⟨[[1]], 2⟩, ⟨[[1], [3]], 2⟩, ⟨[[3]], 2⟩] := by
  have hms : minsupAbsOf 1 (([[1, -1, 2, -1, 3, -1, -2], [1, -1, 3, -1, -2]] :
      List (List Tok)).length) = 2 := by
    norm_num [minsupAbsOf]
  rcases Nat.lt_or_ge maxLen 4 with h4 | h4
  · interval_cases maxLen
    · rw [run_single_eq [[1, -1, 2, -1, 3, -1, -2], [1, -1, 3, -1, -2]] 1 _ 1 2 (by decide) hms]
      exact ⟨rfl, rfl⟩
    · rw [run_single_eq [[1, -1, 2, -1, 3, -1, -2], [1, -1, 3, -1, -2]] 1 _ 1 2 (by decide) hms]
      exact ⟨rfl, rfl⟩
  · obtain ⟨m, hm⟩ := Nat.exists_eq_add_of_le h4
    rw [Nat.add_comm 4 m] at hm
    subst hm
    rw [run_single_eq [[1, -1, 2, -1, 3, -1, -2], [1, -1, 3, -1, -2]] 1 _ 1 2 (by decide) hms]
    exact ⟨rfl, rfl⟩

/-- Witness for `prefixspan_flat_end_to_end` at `maxLen = 5`. -/
theorem prefixspan_flat_end_to_end_witness :
    2 ≤ 5 ∧
    ((run [[1, -1, 2, -1, 3, -1, -2], [1, -1, 3, -1, -2]] 1 5 1).patternCount = 3 ∧
     (run [[1, -1, 2, -1, 3, -1, -2], [1, -1, 3, -1, -2]] 1 5 1).records =
       [⟨[[1]], 2⟩, ⟨[[1], [3]], 2⟩, ⟨[[3]], 2⟩]) :=
  ⟨by decide, prefixspan_flat_end_to_end 5 (by decide)⟩

/-! ### C2: general itemset path, postfix-itemset scanning -/

/-- C2, counterexample.  The claim asserts that on the single input
sequence `1,2,-1,3,-2` with relative minimum support 1.0 the run emits
the s-extension pattern `{1} {2}` (support 1).  It does not: in the
scan started by the projection after item 1, token 2 lies in the first
itemset of the scan (`is_first_itemset` is still true), so it is
recorded as an i-extension candidate only, and `{1} {2}` is indeed not
a subpattern of the sequence of itemsets `{1 2} {3}`. -/
theorem multi_example_not_emit_one_then_two :
    (⟨[[1], [2]], 1⟩ : PatRecord) ∉ (run [[1, 2, -1, 3, -2]] 1 1000 1).records := by
  rw [run_multi_eq [[1, 2, -1, 3, -2]] 1 1000 1 1 (by decide) (by norm_num [minsupAbsOf])]
  decide

/-- C2, amended.  In the general itemset growth path, an item token
scanned while inside the postfix itemset is recorded as both an
i-extension candidate and an s-extension candidate only when the scan
has already passed at least one separator (so the postfix state was
re-established by the match cursor); while still inside the entry's
first itemset it is recorded as an i-extension candidate only.  In
particular, for the single input sequence `1,2,-1,3,-2` with relative
minimum support 1.0 the run emits exactly `{1}`, `{1 2}`, `{1 2} {3}`,
`{1} {3}`, `{2}`, `{2} {3}`, `{3}`, each with support 1, and does not
emit `{1} {2}`. -/
theorem multi_postfix_extension_amended :
    (run [[1, 2, -1, 3, -2]] 1 1000 1).records =
      [⟨[[1]], 1⟩, ⟨[[1, 2]], 1⟩, ⟨[[1, 2], [3]], 1⟩, ⟨[[1], [3]], 1⟩,
       ⟨[[2]], 1⟩, ⟨[[2], [3]], 1⟩, ⟨[[3]], 1⟩] ∧
    (∀ (buf : List Tok) (lastBufPos firstPosLast sid i : Nat) (tok : Tok) (s : ScanMulti),
      0 < tok → s.inPostfixItemset = true → s.isFirstItemset = false →
        (scanMultiTok buf lastBufPos firstPosLast sid i tok s).mapPost =
          amapRecord s.mapPost tok ⟨sid, i + 1⟩ ∧
        (scanMultiTok buf lastBufPos firstPosLast sid i tok s).mapNorm =
          amapRecord s.mapNorm tok ⟨sid, i + 1⟩) ∧
    (∀ (buf : List Tok) (lastBufPos firstPosLast sid i : Nat) (tok : Tok) (s : ScanMulti),
      0 < tok → s.inPostfixItemset = true → s.isFirstItemset = true →
        (scanMultiTok buf lastBufPos firstPosLast sid i tok s).mapPost =
          amapRecord s.mapPost tok ⟨sid, i + 1⟩ ∧
        (scanMultiTok buf lastBufPos firstPosLast sid i tok s).mapNorm = s.mapNorm) := by
  refine ⟨?_, ?_, ?_⟩
  · rw [run_multi_eq [[1, 2, -1, 3, -2]] 1 1000 1 1 (by decide) (by norm_num [minsupAbsOf])]
    rfl
  · intro buf lastBufPos firstPosLast sid i tok s htok hpost hfirst
    simp [scanMultiTok, htok, hpost, hfirst]
  · intro buf lastBufPos firstPosLast sid i tok s htok hpost hfirst
    simp [scanMultiTok, htok, hpost, hfirst]

/-- Witness for `multi_postfix_extension_amended`: the mechanism parts
applied at a concrete scan state. -/
theorem multi_postfix_extension_amended_witness :
    (0 : Tok) < 7 ∧
    ((scanMultiTok [] 0 0 4 9 7 ⟨[], [], true, false, 0, 0⟩).mapPost =
        amapRecord ([] : AMap) 7 ⟨4, 10⟩ ∧
      (scanMultiTok [] 0 0 4 9 7 ⟨[], [], true, false, 0, 0⟩).mapNorm =
        amapRecord ([] : AMap) 7 ⟨4, 10⟩) ∧
    ((scanMultiTok [] 0 0 4 9 7 ⟨[], [], true, true, 0, 0⟩).mapPost =
        amapRecord ([] : AMap) 7 ⟨4, 10⟩ ∧
      (scanMultiTok [] 0 0 4 9 7 ⟨[], [], true, true, 0, 0⟩).mapNorm = []) :=
  ⟨by decide,
    multi_postfix_extension_amended.2.1 [] 0 0 4 9 7 ⟨[], [], true, false, 0, 0⟩
      (by decide) rfl rfl,
    multi_postfix_extension_amended.2.2 [] 0 0 4 9 7 ⟨[], [], true, true, 0, 0⟩
      (by decide) rfl rfl⟩

/-! ### C5: itemset-preserving pruning postcondition -/

/-- Checker for the absence of empty itemset markers: every `-1` must be
immediately preceded by a positive token.  The flag carries whether the
previous token was positive; it starts false, so this also rules out a
leading `-1` and two adjacent `-1` tokens. -/
def sepAfterItem : Bool → List Tok → Bool
  | _, [] => true
  | prevPos, tok :: rest =>
      if tok = -1 then prevPos && sepAfterItem false rest
      else sepAfterItem (decide (0 < tok)) rest

/-- Shape of the multi-variant pruning output on a terminated sequence:
some prefix of kept tokens (separators and surviving frequent items)
followed by exactly one terminator. -/
theorem pruneTokensMulti_shape (f : Tok → Bool) :
    ∀ (seq : List Tok) (cnt : Nat), (-2 : Tok) ∈ seq →
      ∃ pre, pruneTokensMulti f cnt seq = pre ++ [-2] ∧ (-2 : Tok) ∉ pre ∧
        ∀ t ∈ pre, t = -1 ∨ (0 < t ∧ f t = true) := by
  intro seq
  induction seq with
  | nil => intro cnt h; simp at h
  | cons tok rest ih =>
    intro cnt h
    by_cases h2 : tok = -2
    · refine ⟨[], ?_, by simp, by simp⟩
      subst h2
      simp [pruneTokensMulti]
    · have hrest : (-2 : Tok) ∈ rest := by
        rcases List.mem_cons.mp h with h' | h'
        · exact absurd h'.symm h2
        · exact h'
      by_cases h1 : (0 : Int) < tok
      · by_cases hf : f tok = true
        · obtain ⟨pre, hp, hn, hm⟩ := ih (cnt + 1) hrest
          refine ⟨tok :: pre, ?_, ?_, ?_⟩
          · simp [pruneTokensMulti, h1, hf, hp]
          · simp only [List.mem_cons, not_or]
            refine ⟨?_, hn⟩
            intro hc
            rw [← hc] at h1
            norm_num at h1
          · intro t ht
            rcases List.mem_cons.mp ht with rfl | ht'
            · exact Or.inr ⟨h1, hf⟩
            · exact hm t ht'
        · obtain ⟨pre, hp, hn, hm⟩ := ih cnt hrest
          exact ⟨pre, by simp [pruneTokensMulti, h1, hf, hp], hn, hm⟩
      · by_cases hsep : tok = -1
        · subst hsep
          by_cases hc : 0 < cnt
          · obtain ⟨pre, hp, hn, hm⟩ := ih 0 hrest
            refine ⟨-1 :: pre, ?_, ?_, ?_⟩
            · simp [pruneTokensMulti, hc, hp]
            · simp only [List.mem_cons, not_or]
              exact ⟨by norm_num, hn⟩
            · intro t ht
              rcases List.mem_cons.mp ht with rfl | ht'
              · exact Or.inl rfl
              · exact hm t ht'
          · obtain ⟨pre, hp, hn, hm⟩ := ih cnt hrest
            exact ⟨pre, by simp [pruneTokensMulti, h1, hc, hp], hn, hm⟩
        · obtain ⟨pre, hp, hn, hm⟩ := ih cnt hrest
          exact ⟨pre, by simp [pruneTokensMulti, h1, hsep, h2, hp], hn, hm⟩

/-- The multi-variant pruning output is short (nothing kept) exactly when
every positive token before the terminator fails the frequency test. -/
theorem pruneTokensMulti_short_iff (f : Tok → Bool) :
    ∀ seq : List Tok, (-2 : Tok) ∈ seq →
      ((pruneTokensMulti f 0 seq).length ≤ 1 ↔
        ∀ t ∈ seq.takeWhile (fun t => !(t == -2)), 0 < t → f t = false) := by
  intro seq
  induction seq with
  | nil => intro h; simp at h
  | cons tok rest ih =>
    intro h
    by_cases h2 : tok = -2
    · subst h2
      simp [pruneTokensMulti, List.takeWhile]
    · have hrest : (-2 : Tok) ∈ rest := by
        rcases List.mem_cons.mp h with h' | h'
        · exact absurd h'.symm h2
        · exact h'
      have htw : (tok :: rest).takeWhile (fun t => !(t == -2)) =
          tok :: rest.takeWhile (fun t => !(t == -2)) :=
        List.takeWhile_cons_of_pos (by simp [h2])
      have hcons : ∀ P : Tok → Prop,
          (∀ t ∈ tok :: rest.takeWhile (fun t => !(t == -2)), 0 < t → P t) ↔
            ((0 < tok → P tok) ∧
              ∀ t ∈ rest.takeWhile (fun t => !(t == -2)), 0 < t → P t) := by
        intro P
        constructor
        · intro hall
          exact ⟨hall tok (List.mem_cons_self _ _),
            fun t ht hpos => hall t (List.mem_cons.mpr (Or.inr ht)) hpos⟩
        · rintro ⟨h0, hall⟩ t ht hpos
          rcases List.mem_cons.mp ht with rfl | ht'
          · exact h0 hpos
          · exact hall t ht' hpos
      rw [htw, hcons (fun t => f t = false)]
      by_cases h1 : (0 : Int) < tok
      · by_cases hf : f tok = true
        · obtain ⟨pre, hp, _, _⟩ := pruneTokensMulti_shape f rest 1 hrest
          have hstep : pruneTokensMulti f 0 (tok :: rest) = tok :: pruneTokensMulti f 1 rest := by
            simp [pruneTokensMulti, h1, hf]
          rw [hstep, hp]
          constructor
          · intro hlen
            exfalso
            rw [List.length_cons, List.length_append] at hlen
            simp at hlen
          · rintro ⟨h0, _⟩
            have hftok := h0 h1
            rw [hf] at hftok
            exact Bool.noConfusion hftok
        · have hf' : f tok = false := by simpa using hf
          have hstep : pruneTokensMulti f 0 (tok :: rest) = pruneTokensMulti f 0 rest := by
            simp [pruneTokensMulti, h1, hf']
          rw [hstep, ih hrest]
          exact ⟨fun hall => ⟨fun _ => hf', hall⟩, fun hh => hh.2⟩
      · have hnotpos : (0 < tok → f tok = false) := fun hpos => absurd hpos h1
        by_cases hsep : tok = -1
        · subst hsep
          have hstep : pruneTokensMulti f 0 (-1 :: rest) = pruneTokensMulti f 0 rest := by
            norm_num [pruneTokensMulti]
          rw [hstep, ih hrest]
          exact ⟨fun hall => ⟨hnotpos, hall⟩, fun hh => hh.2⟩
        · have hstep : pruneTokensMulti f 0 (tok :: rest) = pruneTokensMulti f 0 rest := by
            simp [pruneTokensMulti, h1, hsep, h2]
          rw [hstep, ih hrest]
          exact ⟨fun hall => ⟨hnotpos, hall⟩, fun hh => hh.2⟩

/-- Unfolding equation for `sepAfterItem` on a nonempty list. -/
theorem sepAfterItem_cons (p : Bool) (tok : Tok) (rest : List Tok) :
    sepAfterItem p (tok :: rest) =
      if tok = -1 then p && sepAfterItem false rest
      else sepAfterItem (decide (0 < tok)) rest := rfl

/-- The multi-variant pruning never produces an empty itemset marker:
every kept separator immediately follows a kept item. -/
theorem sepAfterItem_pruneTokensMulti (f : Tok → Bool) :
    ∀ (seq : List Tok) (cnt : Nat) (p : Bool), (0 < cnt → p = true) →
      sepAfterItem p (pruneTokensMulti f cnt seq) = true := by
  intro seq
  induction seq with
  | nil => intro cnt p _; rfl
  | cons tok rest ih =>
    intro cnt p hp
    by_cases h1 : (0 : Int) < tok
    · have hne : ¬tok = -1 := by
        intro hc
        rw [hc] at h1
        norm_num at h1
      by_cases hf : f tok = true
      · have hstep : pruneTokensMulti f cnt (tok :: rest) =
            tok :: pruneTokensMulti f (cnt + 1) rest := by
          simp [pruneTokensMulti, h1, hf]
        rw [hstep, sepAfterItem_cons, if_neg hne]
        exact ih (cnt + 1) _ (fun _ => by simp [h1])
      · have hstep : pruneTokensMulti f cnt (tok :: rest) =
            pruneTokensMulti f cnt rest := by
          simp [pruneTokensMulti, h1, hf]
        rw [hstep]
        exact ih cnt p hp
    · by_cases hsep : tok = -1
      · subst hsep
        by_cases hc : 0 < cnt
        · have hstep : pruneTokensMulti f cnt (-1 :: rest) =
              -1 :: pruneTokensMulti f 0 rest := by
            norm_num [pruneTokensMulti, hc]
          rw [hstep, sepAfterItem_cons, if_pos rfl, hp hc]
          simpa using ih 0 false (fun hcc => absurd hcc (Nat.lt_irrefl 0))
        · have hstep : pruneTokensMulti f cnt (-1 :: rest) =
              pruneTokensMulti f cnt rest := by
            norm_num [pruneTokensMulti, hc]
          rw [hstep]
          exact ih cnt p hp
      · by_cases h2 : tok = -2
        · subst h2
          have hstep : pruneTokensMulti f cnt (-2 :: rest) = [-2] := by
            norm_num [pruneTokensMulti]
          rw [hstep]
          rfl
        · have hstep : pruneTokensMulti f cnt (tok :: rest) =
              pruneTokensMulti f cnt rest := by
            simp [pruneTokensMulti, h1, hsep, h2]
          rw [hstep]
          exact ih cnt p hp

/-- C5.  Itemset-preserving pruning postcondition: on a terminated
sequence, the in-place pruning of `_prefixspan_with_multiple_items`
either deletes the entry (exactly when no item passes the frequency
test before the terminator) or produces a token list that contains no
failing items, consists of a terminator-free prefix followed by exactly
one final terminator, and contains no empty itemset markers (no leading
separator, no two adjacent separators: every kept `-1` immediately
follows a kept item). -/
theorem prune_multi_postcondition (f : Tok → Bool) (seq : List Tok)
    (h : (-2 : Tok) ∈ seq) :
    (pruneSeqMulti f seq = none ↔
      ∀ t ∈ seq.takeWhile (fun t => !(t == -2)), 0 < t → f t = false) ∧
    ∀ out, pruneSeqMulti f seq = some out →
      (∀ t ∈ out, 0 < t → f t = true) ∧
      (∃ pre, out = pre ++ [-2] ∧ (-2 : Tok) ∉ pre) ∧
      sepAfterItem false out = true := by
  constructor
  · rw [← pruneTokensMulti_short_iff f seq h]
    unfold pruneSeqMulti
    constructor
    · intro hnone
      by_contra hlen
      rw [if_pos (by omega)] at hnone
      exact Option.noConfusion hnone
    · intro hlen
      rw [if_neg (by omega)]
  · intro out hout
    have hshape := pruneTokensMulti_shape f seq 0 h
    obtain ⟨pre, hp, hn, hm⟩ := hshape
    have hout2 : (if 1 < (pruneTokensMulti f 0 seq).length
        then some (pruneTokensMulti f 0 seq) else none) = some out := hout
    have hout' : out = pruneTokensMulti f 0 seq := by
      split at hout2
      · exact (Option.some.inj hout2).symm
      · exact Option.noConfusion hout2
    subst hout'
    refine ⟨?_, ⟨pre, hp, hn⟩,
      sepAfterItem_pruneTokensMulti f seq 0 false (fun hcc => absurd hcc (Nat.lt_irrefl 0))⟩
    intro t ht hpos
    rw [hp] at ht
    rcases List.mem_append.mp ht with ht' | ht'
    · rcases hm t ht' with rfl | ⟨_, hf⟩
      · norm_num at hpos
      · exact hf
    · simp only [List.mem_singleton] at ht'
      subst ht'
      norm_num at hpos

/-- Witness for `prune_multi_postcondition` on `1,-1,2,-1,-2` with item
1 frequent and item 2 infrequent. -/
theorem prune_multi_postcondition_witness :
    ((-2 : Tok) ∈ [1, -1, 2, -1, -2]) ∧
    ((pruneSeqMulti (fun t => t == 1) [1, -1, 2, -1, -2] = none ↔
      ∀ t ∈ ([1, -1, 2, -1, -2] : List Tok).takeWhile (fun t => !(t == -2)),
        0 < t → (t == 1) = false) ∧
    ∀ out, pruneSeqMulti (fun t => t == 1) [1, -1, 2, -1, -2] = some out →
      (∀ t ∈ out, 0 < t → (t == 1) = true) ∧
      (∃ pre, out = pre ++ [-2] ∧ (-2 : Tok) ∉ pre) ∧
      sepAfterItem false out = true) :=
  ⟨by decide, prune_multi_postcondition (fun t => t == 1) [1, -1, 2, -1, -2] (by decide)⟩

/-! ### C9: multi-item flag and dispatch -/

/-- Spec-side predicate: the list starts, before any separator or
terminator, with some positive token. -/
def ItemBeforeBoundary (l : List Tok) : Prop :=
  ∃ mid b post, l = mid ++ b :: post ∧ (0 : Int) < b ∧ ∀ x ∈ mid, x ≠ -1 ∧ x ≠ -2

/-- Spec-side predicate, following the words of the specification: the
sequence contains, before its terminator, an itemset with at least two
items, i.e. two positive tokens with no `-1` or `-2` between them. -/
def SeqHasMultiItemItemset (l : List Tok) : Prop :=
  ∃ pre a mid b post, l = pre ++ a :: (mid ++ b :: post) ∧ (0 : Int) < a ∧ (0 : Int) < b ∧
    (∀ x ∈ pre, x ≠ -2) ∧ ∀ x ∈ mid, x ≠ -1 ∧ x ≠ -2

theorem itemBeforeBoundary_nil : ¬ItemBeforeBoundary [] := by
  rintro ⟨mid, b, post, heq, -, -⟩
  cases mid <;> simp at heq

theorem seqHasMultiItemItemset_nil : ¬SeqHasMultiItemItemset [] := by
  rintro ⟨pre, a, mid, b, post, heq, -, -, -, -⟩
  cases pre <;> simp at heq

theorem itemBeforeBoundary_cons_pos {tok : Tok} (h : (0 : Int) < tok) (rest : List Tok) :
    ItemBeforeBoundary (tok :: rest) :=
  ⟨[], tok, rest, by simp, h, by simp⟩

theorem itemBeforeBoundary_cons_other {tok : Tok} (hpos : ¬(0 : Int) < tok)
    (h1 : tok ≠ -1) (h2 : tok ≠ -2) (rest : List Tok) :
    ItemBeforeBoundary (tok :: rest) ↔ ItemBeforeBoundary rest := by
  constructor
  · rintro ⟨mid, b, post, heq, hb, hmid⟩
    cases mid with
    | nil =>
      simp only [List.nil_append, List.cons.injEq] at heq
      exact absurd (heq.1 ▸ hb) hpos
    | cons m0 mid' =>
      simp only [List.cons_append, List.cons.injEq] at heq
      exact ⟨mid', b, post, heq.2, hb, fun x hx => hmid x (List.mem_cons.mpr (Or.inr hx))⟩
  · rintro ⟨mid, b, post, heq, hb, hmid⟩
    refine ⟨tok :: mid, b, post, by simp [heq], hb, ?_⟩
    intro x hx
    rcases List.mem_cons.mp hx with rfl | hx'
    · exact ⟨h1, h2⟩
    · exact hmid x hx'

theorem itemBeforeBoundary_cons_boundary {tok : Tok} (h : tok = -1 ∨ tok = -2)
    (rest : List Tok) : ¬ItemBeforeBoundary (tok :: rest) := by
  rintro ⟨mid, b, post, heq, hb, hmid⟩
  cases mid with
  | nil =>
    simp only [List.nil_append, List.cons.injEq] at heq
    rcases h with rfl | rfl <;> rw [← heq.1] at hb <;> norm_num at hb
  | cons m0 mid' =>
    simp only [List.cons_append, List.cons.injEq] at heq
    have := hmid m0 (List.mem_cons_self _ _)
    rcases h with rfl | rfl
    · exact heq.1 ▸ this |>.1 (heq.1 ▸ rfl)
    · exact heq.1 ▸ this |>.2 (heq.1 ▸ rfl)

theorem seqHasMultiItemItemset_cons_pos {tok : Tok} (h : (0 : Int) < tok)
    (rest : List Tok) :
    SeqHasMultiItemItemset (tok :: rest) ↔
      ItemBeforeBoundary rest ∨ SeqHasMultiItemItemset rest := by
  constructor
  · rintro ⟨pre, a, mid, b, post, heq, ha, hb, hpre, hmid⟩
    cases pre with
    | nil =>
      simp only [List.nil_append, List.cons.injEq] at heq
      exact Or.inl ⟨mid, b, post, heq.2, hb, hmid⟩
    | cons p0 pre' =>
      simp only [List.cons_append, List.cons.injEq] at heq
      exact Or.inr ⟨pre', a, mid, b, post, heq.2, ha, hb,
        fun x hx => hpre x (List.mem_cons.mpr (Or.inr hx)), hmid⟩
  · rintro (⟨mid, b, post, heq, hb, hmid⟩ | ⟨pre, a, mid, b, post, heq, ha, hb, hpre, hmid⟩)
    · exact ⟨[], tok, mid, b, post, by simp [heq], h, hb, by simp, hmid⟩
    · refine ⟨tok :: pre, a, mid, b, post, by simp [heq], ha, hb, ?_, hmid⟩
      intro x hx
      rcases List.mem_cons.mp hx with rfl | hx'
      · intro hc
        rw [hc] at h
        norm_num at h
      · exact hpre x hx'

theorem seqHasMultiItemItemset_cons_notpos {tok : Tok} (hpos : ¬(0 : Int) < tok)
    (h2 : tok ≠ -2) (rest : List Tok) :
    SeqHasMultiItemItemset (tok :: rest) ↔ SeqHasMultiItemItemset rest := by
  constructor
  · rintro ⟨pre, a, mid, b, post, heq, ha, hb, hpre, hmid⟩
    cases pre with
    | nil =>
      simp only [List.nil_append, List.cons.injEq] at heq
      exact absurd (heq.1 ▸ ha) hpos
    | cons p0 pre' =>
      simp only [List.cons_append, List.cons.injEq] at heq
      exact ⟨pre', a, mid, b, post, heq.2, ha, hb,
        fun x hx => hpre x (List.mem_cons.mpr (Or.inr hx)), hmid⟩
  · rintro ⟨pre, a, mid, b, post, heq, ha, hb, hpre, hmid⟩
    refine ⟨tok :: pre, a, mid, b, post, by simp [heq], ha, hb, ?_, hmid⟩
    intro x hx
    rcases List.mem_cons.mp hx with rfl | hx'
    · exact h2
    · exact hpre x hx'

theorem seqHasMultiItemItemset_cons_term (rest : List Tok) :
    ¬SeqHasMultiItemItemset (-2 :: rest) := by
  rintro ⟨pre, a, mid, b, post, heq, ha, hb, hpre, hmid⟩
  cases pre with
  | nil =>
    simp only [List.nil_append, List.cons.injEq] at heq
    rw [← heq.1] at ha
    norm_num at ha
  | cons p0 pre' =>
    simp only [List.cons_append, List.cons.injEq] at heq
    exact hpre p0 (List.mem_cons_self _ _) heq.1.symm

/-- Flag component of the per-sequence scan: it fires exactly when the
scan either completes an itemset of two positive tokens while the
running count credits `cnt` earlier items, or finds a genuine two-item
itemset further on, or was already set. -/
theorem findSeqScan_flag (sid : Nat) :
    ∀ (l : List Tok) (seen : List Tok) (cnt : Nat) (m : SidMap) (multi : Bool),
      ((findSeqScan sid l seen cnt m multi).2 = true ↔
        (multi = true ∨ (1 ≤ cnt ∧ ItemBeforeBoundary l) ∨ SeqHasMultiItemItemset l)) := by
  intro l
  induction l with
  | nil =>
    intro seen cnt m multi
    simp [findSeqScan, itemBeforeBoundary_nil, seqHasMultiItemItemset_nil]
  | cons tok rest ih =>
    intro seen cnt m multi
    by_cases h1 : (0 : Int) < tok
    · have hstep : findSeqScan sid (tok :: rest) seen cnt m multi =
          findSeqScan sid rest (if tok ∈ seen then seen else tok :: seen) (cnt + 1)
            (if tok ∈ seen then m else sidMapAppend m tok sid)
            (multi || decide (1 < cnt + 1)) := by
        simp [findSeqScan, h1]
      rw [hstep, ih]
      rw [seqHasMultiItemItemset_cons_pos h1]
      have hIBB := itemBeforeBoundary_cons_pos h1 rest
      constructor
      · rintro (hor | ⟨hcnt, hrest⟩ | hshm)
        · rcases Bool.or_eq_true_iff.mp hor with hm | hd
          · exact Or.inl hm
          · have : 1 ≤ cnt := by
              have := of_decide_eq_true hd
              omega
            exact Or.inr (Or.inl ⟨this, hIBB⟩)
        · exact Or.inr (Or.inr (Or.inl hrest))
        · exact Or.inr (Or.inr (Or.inr hshm))
      · rintro (hm | ⟨hcnt, -⟩ | hrest | hshm)
        · exact Or.inl (by simp [hm])
        · exact Or.inl (by simp [decide_eq_true_eq]; omega)
        · exact Or.inr (Or.inl ⟨by omega, hrest⟩)
        · exact Or.inr (Or.inr hshm)
    · by_cases hsep : tok = -1
      · subst hsep
        have hstep : findSeqScan sid (-1 :: rest) seen cnt m multi =
            findSeqScan sid rest seen 0 m multi := by
          norm_num [findSeqScan]
        rw [hstep, ih]
        rw [seqHasMultiItemItemset_cons_notpos h1 (by norm_num)]
        have hIBB := itemBeforeBoundary_cons_boundary (Or.inl rfl) rest
        constructor
        · rintro (hm | ⟨hcnt, -⟩ | hshm)
          · exact Or.inl hm
          · omega
          · exact Or.inr (Or.inr hshm)
        · rintro (hm | ⟨-, hc⟩ | hshm)
          · exact Or.inl hm
          · exact absurd hc hIBB
          · exact Or.inr (Or.inr hshm)
      · by_cases hterm : tok = -2
        · subst hterm
          have hstep : findSeqScan sid (-2 :: rest) seen cnt m multi = (m, multi) := by
            norm_num [findSeqScan]
          rw [hstep]
          have hIBB := itemBeforeBoundary_cons_boundary (Or.inr rfl) rest
          have hSHM := seqHasMultiItemItemset_cons_term rest
          constructor
          · exact fun hm => Or.inl hm
          · rintro (hm | ⟨-, hc⟩ | hshm)
            · exact hm
            · exact absurd hc hIBB
            · exact absurd hshm hSHM
        · have hstep : findSeqScan sid (tok :: rest) seen cnt m multi =
              findSeqScan sid rest seen cnt m multi := by
            simp [findSeqScan, h1, hsep, hterm]
          rw [hstep, ih]
          rw [seqHasMultiItemItemset_cons_notpos h1 hterm,
            itemBeforeBoundary_cons_other h1 hsep hterm]

/-- Folding the flag over a list of sequence ids. -/
theorem findItems_fold_flag (db : List (List Tok)) :
    ∀ (sids : List Nat) (acc : SidMap × Bool),
      ((sids.foldl (fun acc sid => findSeqScan sid (db.getD sid []) [] 0 acc.1 acc.2)
          acc).2 = true ↔
        (acc.2 = true ∨ ∃ sid ∈ sids, SeqHasMultiItemItemset (db.getD sid []))) := by
  intro sids
  induction sids with
  | nil => intro acc; simp
  | cons sid rest ih =>
    intro acc
    rw [List.foldl_cons, ih]
    rw [findSeqScan_flag]
    constructor
    · rintro ((hm | ⟨hc, -⟩ | hshm) | ⟨s, hs, hshm⟩)
      · exact Or.inl hm
      · omega
      · exact Or.inr ⟨sid, List.mem_cons_self _ _, hshm⟩
      · exact Or.inr ⟨s, List.mem_cons.mpr (Or.inr hs), hshm⟩
    · rintro (hm | ⟨s, hs, hshm⟩)
      · exact Or.inl (Or.inl hm)
      · rcases List.mem_cons.mp hs with rfl | hs'
        · exact Or.inl (Or.inr (Or.inr hshm))
        · exact Or.inr ⟨s, hs', hshm⟩

/-- C9.  Dispatch correctness: the multi-item flag computed by the
frequent-item pass is true exactly when some sequence of the database
contains, before its terminator, an itemset with at least two items
(two positive tokens with no `-1` or `-2` between them); and the flag
alone selects the growth algorithm: the run equals the general itemset
path when the flag is true and the flat path when it is false. -/
theorem multi_flag_iff_and_dispatch (db0 : List (List Tok)) :
    ((findItems db0).2 = true ↔ ∃ seq ∈ db0, SeqHasMultiItemItemset seq) ∧
    (∀ (s : ℚ) (maxLen minLen : Nat),
      ((findItems db0).2 = true →
        run db0 s maxLen minLen =
          ⟨(prefixspanMulti (findItems db0).1 (minsupAbsOf s db0.length) maxLen
              (max 1 minLen) db0).patternCount,
           (prefixspanMulti (findItems db0).1 (minsupAbsOf s db0.length) maxLen
              (max 1 minLen) db0).records,
           minsupAbsOf s db0.length,
           (prefixspanMulti (findItems db0).1 (minsupAbsOf s db0.length) maxLen
              (max 1 minLen) db0).hi⟩) ∧
      ((findItems db0).2 = false →
        run db0 s maxLen minLen =
          ⟨(prefixspanSingle (findItems db0).1 (minsupAbsOf s db0.length) maxLen
              (max 1 minLen) db0).patternCount,
           (prefixspanSingle (findItems db0).1 (minsupAbsOf s db0.length) maxLen
              (max 1 minLen) db0).records,
           minsupAbsOf s db0.length,
           (prefixspanSingle (findItems db0).1 (minsupAbsOf s db0.length) maxLen
              (max 1 minLen) db0).hi⟩)) := by
  constructor
  · rw [findItems, findItems_fold_flag]
    simp only [Bool.false_eq_true, false_or]
    constructor
    · rintro ⟨sid, hsid, hshm⟩
      rw [List.mem_range] at hsid
      rw [List.getD_eq_getElem db0 [] hsid] at hshm
      exact ⟨db0[sid], List.getElem_mem hsid, hshm⟩
    · rintro ⟨seq, hseq, hshm⟩
      obtain ⟨i, hi, rfl⟩ := List.mem_iff_getElem.mp hseq
      refine ⟨i, List.mem_range.mpr hi, ?_⟩
      rwa [List.getD_eq_getElem db0 [] hi]
  · intro s maxLen minLen
    exact ⟨fun hf => run_multi_eq db0 s maxLen minLen _ hf rfl,
      fun hf => run_single_eq db0 s maxLen minLen _ hf rfl⟩

/-- Witness for `multi_flag_iff_and_dispatch` on a database with one
two-item itemset. -/
theorem multi_flag_iff_and_dispatch_witness :
    ∃ seq ∈ [[1, 2, -2]], SeqHasMultiItemItemset seq :=
  (multi_flag_iff_and_dispatch [[1, 2, -2]]).1.mp (by decide)

/-! ### C4 and C3: dedup discipline of candidate lists and
anti-monotonicity of support -/

/-- Pointwise description of `amapRecord` through `amapGet`. -/
theorem amapGet_amapRecord (m : AMap) (tok : Tok) (ps : PseudoSequence) (item : Tok) :
    amapGet (amapRecord m tok ps) item =
      if item = tok then dedupAppend (amapGet m tok) ps else amapGet m item := by
  induction m with
  | nil =>
    by_cases h : item = tok
    · subst h
      simp [amapRecord, amapGet]
    · have h' : ¬tok = item := fun hc => h hc.symm
      simp [amapRecord, amapGet, h, h']
  | cons e rest ih =>
    obtain ⟨k, v⟩ := e
    by_cases hk : k = tok
    · subst hk
      by_cases h : k = item
      · subst h
        simp [amapRecord, amapGet]
      · have h' : ¬item = k := fun hc => h hc.symm
        simp [amapRecord, amapGet, h, h']
    · by_cases h : k = item
      · subst h
        have h' : ¬k = tok := hk
        simp [amapRecord, amapGet, hk, h']
      · simp [amapRecord, amapGet, hk, h, ih]

/-- `dedupAppend` either leaves the list unchanged (when it already ends
with the same sequence id) or appends exactly one entry. -/
theorem dedupAppend_cases (l : List PseudoSequence) (ps : PseudoSequence) :
    dedupAppend l ps = l ++ [ps] ∧
        (∀ p, l.getLast? = some p → p.sequence_id ≠ ps.sequence_id) ∨
      dedupAppend l ps = l := by
  cases hl : l.getLast? with
  | none =>
    have hnil : l = [] := List.getLast?_eq_none_iff.mp hl
    subst hnil
    have hd : dedupAppend [] ps = [ps] := rfl
    exact Or.inl ⟨hd, by simp⟩
  | some p0 =>
    have hd : dedupAppend l ps =
        if p0.sequence_id ≠ ps.sequence_id then l ++ [ps] else l := by
      unfold dedupAppend
      rw [hl]
    by_cases hne : p0.sequence_id ≠ ps.sequence_id
    · rw [hd, if_pos hne]
      refine Or.inl ⟨rfl, ?_⟩
      intro p hp
      exact Option.some.inj hp ▸ hne
    · rw [hd, if_neg hne]
      exact Or.inr rfl

/-- Extension-by-at-most-one relation: the list grows by at most one
entry with the given sequence id, and only when it did not already end
with that id. -/
def ExtOne (sid : Nat) (l l2 : List PseudoSequence) : Prop :=
  l2 = l ∨ ∃ j, l2 = l ++ [⟨sid, j⟩] ∧
    ∀ p, l.getLast? = some p → p.sequence_id ≠ sid

theorem extOne_refl (sid : Nat) (l : List PseudoSequence) : ExtOne sid l l :=
  Or.inl rfl

theorem extOne_trans {sid : Nat} {l l2 l3 : List PseudoSequence}
    (h12 : ExtOne sid l l2) (h23 : ExtOne sid l2 l3) : ExtOne sid l l3 := by
  rcases h12 with rfl | ⟨j, rfl, hlast⟩
  · exact h23
  · rcases h23 with rfl | ⟨j2, rfl, hlast2⟩
    · exact Or.inr ⟨j, rfl, hlast⟩
    · exfalso
      exact hlast2 ⟨sid, j⟩ (List.getLast?_concat _) rfl

theorem extOne_dedupAppend (l : List PseudoSequence) (ps : PseudoSequence) :
    ExtOne ps.sequence_id l (dedupAppend l ps) := by
  rcases dedupAppend_cases l ps with ⟨heq, hlast⟩ | heq
  · exact Or.inr ⟨ps.index_first_item, by rw [heq], hlast⟩
  · exact Or.inl heq

/-- One `amapRecord` step is an `ExtOne` extension on every item list. -/
theorem extOne_amapRecord (m : AMap) (sid : Nat) (j : Nat) (tok item : Tok) :
    ExtOne sid (amapGet m item) (amapGet (amapRecord m tok ⟨sid, j⟩) item) := by
  rw [amapGet_amapRecord]
  by_cases h : item = tok
  · rw [if_pos h, h]
    exact extOne_dedupAppend (amapGet m tok) ⟨sid, j⟩
  · rw [if_neg h]
    exact extOne_refl sid _

/-- The whole single-path token scan for one pseudo-sequence is an
`ExtOne` extension on every item list. -/
theorem extOne_scanSeqSingle (sid : Nat) :
    ∀ (toks : List Tok) (i : Nat) (m : AMap) (item : Tok),
      ExtOne sid (amapGet m item) (amapGet (scanSeqSingle sid i toks m) item) := by
  intro toks
  induction toks with
  | nil => intro i m item; exact extOne_refl sid _
  | cons tok rest ih =>
    intro i m item
    by_cases h2 : tok = -2
    · subst h2
      have : scanSeqSingle sid i (-2 :: rest) m = m := by norm_num [scanSeqSingle]
      rw [this]
      exact extOne_refl sid _
    · by_cases h1 : (0 : Int) < tok
      · have hstep : scanSeqSingle sid i (tok :: rest) m =
            scanSeqSingle sid (i + 1) rest (amapRecord m tok ⟨sid, i + 1⟩) := by
          simp [scanSeqSingle, h1, h2]
        rw [hstep]
        exact extOne_trans (extOne_amapRecord m sid (i + 1) tok item) (ih (i + 1) _ item)
      · have hstep : scanSeqSingle sid i (tok :: rest) m =
            scanSeqSingle sid (i + 1) rest m := by
          simp [scanSeqSingle, h1, h2]
        rw [hstep]
        exact ih (i + 1) m item

/-- The i-extension dict after one multi-path token step: a positive
token is recorded exactly while inside the postfix itemset. -/
theorem scanMultiTok_mapPost (buf : List Tok) (lastBufPos firstPosLast sid i : Nat)
    (tok : Tok) (s : ScanMulti) :
    (scanMultiTok buf lastBufPos firstPosLast sid i tok s).mapPost =
      if (0 : Int) < tok ∧ s.inPostfixItemset then
        amapRecord s.mapPost tok ⟨sid, i + 1⟩
      else s.mapPost := by
  unfold scanMultiTok
  by_cases h1 : (0 : Int) < tok
  · by_cases hpf : s.inPostfixItemset
    · by_cases hfi : s.isFirstItemset <;> simp [h1, hpf, hfi]
    · simp only [h1, hpf]
      simp
      split
      · split <;> rfl
      · rfl
  · simp [h1]
    split <;> rfl

/-- The s-extension dict after one multi-path token step: a positive
token is recorded when outside the postfix itemset, and also while
inside it once the scan has passed its first itemset. -/
theorem scanMultiTok_mapNorm (buf : List Tok) (lastBufPos firstPosLast sid i : Nat)
    (tok : Tok) (s : ScanMulti) :
    (scanMultiTok buf lastBufPos firstPosLast sid i tok s).mapNorm =
      if (0 : Int) < tok then
        if s.inPostfixItemset then
          if s.isFirstItemset then s.mapNorm
          else amapRecord s.mapNorm tok ⟨sid, i + 1⟩
        else amapRecord s.mapNorm tok ⟨sid, i + 1⟩
      else s.mapNorm := by
  unfold scanMultiTok
  by_cases h1 : (0 : Int) < tok
  · by_cases hpf : s.inPostfixItemset
    · by_cases hfi : s.isFirstItemset <;> simp [h1, hpf, hfi]
    · simp only [h1, hpf]
      simp
      split
      · split <;> rfl
      · rfl
  · simp [h1]
    split <;> rfl

/-- One multi-path token step is an `ExtOne` extension on both maps. -/
theorem extOne_scanMultiTok (buf : List Tok) (lastBufPos firstPosLast sid i : Nat)
    (tok : Tok) (s : ScanMulti) (item : Tok) :
    ExtOne sid (amapGet s.mapPost item)
      (amapGet (scanMultiTok buf lastBufPos firstPosLast sid i tok s).mapPost item) ∧
    ExtOne sid (amapGet s.mapNorm item)
      (amapGet (scanMultiTok buf lastBufPos firstPosLast sid i tok s).mapNorm item) := by
  rw [scanMultiTok_mapPost, scanMultiTok_mapNorm]
  constructor
  · split
    · exact extOne_amapRecord _ sid (i + 1) tok item
    · exact extOne_refl sid _
  · split
    · split
      · split
        · exact extOne_refl sid _
        · exact extOne_amapRecord _ sid (i + 1) tok item
      · exact extOne_amapRecord _ sid (i + 1) tok item
    · exact extOne_refl sid _

/-- The whole multi-path token scan for one pseudo-sequence is an
`ExtOne` extension on both maps. -/
theorem extOne_scanSeqMulti (buf : List Tok) (lastBufPos firstPosLast sid : Nat) :
    ∀ (toks : List Tok) (i : Nat) (s : ScanMulti) (item : Tok),
      ExtOne sid (amapGet s.mapPost item)
        (amapGet (scanSeqMulti buf lastBufPos firstPosLast sid i toks s).mapPost item) ∧
      ExtOne sid (amapGet s.mapNorm item)
        (amapGet (scanSeqMulti buf lastBufPos firstPosLast sid i toks s).mapNorm item) := by
  intro toks
  induction toks with
  | nil => intro i s item; exact ⟨extOne_refl sid _, extOne_refl sid _⟩
  | cons tok rest ih =>
    intro i s item
    by_cases h2 : tok = -2
    · subst h2
      have hstep : scanSeqMulti buf lastBufPos firstPosLast sid i (-2 :: rest) s = s := by
        norm_num [scanSeqMulti]
      rw [hstep]
      exact ⟨extOne_refl sid _, extOne_refl sid _⟩
    · have hstep : scanSeqMulti buf lastBufPos firstPosLast sid i (tok :: rest) s =
          scanSeqMulti buf lastBufPos firstPosLast sid (i + 1) rest
            (scanMultiTok buf lastBufPos firstPosLast sid i tok s) := by
        simp [scanSeqMulti, h2]
      rw [hstep]
      obtain ⟨hp1, hn1⟩ := extOne_scanMultiTok buf lastBufPos firstPosLast sid i tok s item
      obtain ⟨hp2, hn2⟩ := ih (i + 1) (scanMultiTok buf lastBufPos firstPosLast sid i tok s) item
      exact ⟨extOne_trans hp1 hp2, extOne_trans hn1 hn2⟩

/-- Keys of an `amapRecord` result: unchanged when the key exists,
appended otherwise. -/
theorem amapRecord_keys (m : AMap) (tok : Tok) (ps : PseudoSequence) :
    (amapRecord m tok ps).map Prod.fst =
      if tok ∈ m.map Prod.fst then m.map Prod.fst else m.map Prod.fst ++ [tok] := by
  induction m with
  | nil => simp [amapRecord]
  | cons e rest ih =>
    obtain ⟨k, v⟩ := e
    by_cases hk : k = tok
    · subst hk
      simp [amapRecord]
    · have hk' : ¬tok = k := fun hc => hk hc.symm
      simp only [amapRecord, if_neg hk, List.map_cons, ih]
      by_cases hmem : tok ∈ rest.map Prod.fst
      · simp [hmem, hk']
      · simp [hmem, hk']

theorem amapRecord_keys_nodup (m : AMap) (tok : Tok) (ps : PseudoSequence)
    (h : (m.map Prod.fst).Nodup) : ((amapRecord m tok ps).map Prod.fst).Nodup := by
  rw [amapRecord_keys]
  split
  · exact h
  · rename_i hmem
    simp [List.nodup_append, h, hmem]

theorem scanSeqSingle_keys_nodup (sid : Nat) :
    ∀ (toks : List Tok) (i : Nat) (m : AMap), (m.map Prod.fst).Nodup →
      ((scanSeqSingle sid i toks m).map Prod.fst).Nodup := by
  intro toks
  induction toks with
  | nil => intro i m h; exact h
  | cons tok rest ih =>
    intro i m h
    by_cases h2 : tok = -2
    · subst h2
      have : scanSeqSingle sid i (-2 :: rest) m = m := by norm_num [scanSeqSingle]
      rw [this]
      exact h
    · by_cases h1 : (0 : Int) < tok
      · have hstep : scanSeqSingle sid i (tok :: rest) m =
            scanSeqSingle sid (i + 1) rest (amapRecord m tok ⟨sid, i + 1⟩) := by
          simp [scanSeqSingle, h1, h2]
        rw [hstep]
        exact ih (i + 1) _ (amapRecord_keys_nodup m tok _ h)
      · have hstep : scanSeqSingle sid i (tok :: rest) m =
            scanSeqSingle sid (i + 1) rest m := by
          simp [scanSeqSingle, h1, h2]
        rw [hstep]
        exact ih (i + 1) m h

theorem scanMultiTok_keys_nodup (buf : List Tok) (lastBufPos firstPosLast sid i : Nat)
    (tok : Tok) (s : ScanMulti)
    (hp : (s.mapPost.map Prod.fst).Nodup) (hn : (s.mapNorm.map Prod.fst).Nodup) :
    (((scanMultiTok buf lastBufPos firstPosLast sid i tok s).mapPost.map Prod.fst).Nodup) ∧
    (((scanMultiTok buf lastBufPos firstPosLast sid i tok s).mapNorm.map Prod.fst).Nodup) := by
  rw [scanMultiTok_mapPost, scanMultiTok_mapNorm]
  constructor
  · split
    · exact amapRecord_keys_nodup _ _ _ hp
    · exact hp
  · split
    · split
      · split
        · exact hn
        · exact amapRecord_keys_nodup _ _ _ hn
      · exact amapRecord_keys_nodup _ _ _ hn
    · exact hn

theorem scanSeqMulti_keys_nodup (buf : List Tok) (lastBufPos firstPosLast sid : Nat) :
    ∀ (toks : List Tok) (i : Nat) (s : ScanMulti),
      (s.mapPost.map Prod.fst).Nodup → (s.mapNorm.map Prod.fst).Nodup →
      (((scanSeqMulti buf lastBufPos firstPosLast sid i toks s).mapPost.map Prod.fst).Nodup ∧
       ((scanSeqMulti buf lastBufPos firstPosLast sid i toks s).mapNorm.map Prod.fst).Nodup) := by
  intro toks
  induction toks with
  | nil => intro i s hp hn; exact ⟨hp, hn⟩
  | cons tok rest ih =>
    intro i s hp hn
    by_cases h2 : tok = -2
    · subst h2
      have hstep : scanSeqMulti buf lastBufPos firstPosLast sid i (-2 :: rest) s = s := by
        norm_num [scanSeqMulti]
      rw [hstep]
      exact ⟨hp, hn⟩
    · have hstep : scanSeqMulti buf lastBufPos firstPosLast sid i (tok :: rest) s =
          scanSeqMulti buf lastBufPos firstPosLast sid (i + 1) rest
            (scanMultiTok buf lastBufPos firstPosLast sid i tok s) := by
        simp [scanSeqMulti, h2]
      rw [hstep]
      obtain ⟨hp', hn'⟩ := scanMultiTok_keys_nodup buf lastBufPos firstPosLast sid i tok s hp hn
      exact ih (i + 1) _ hp' hn'

/-- With unique keys, association-list membership determines the value
through `amapGet`. -/
theorem amapGet_of_mem :
    ∀ (m : AMap), (m.map Prod.fst).Nodup →
      ∀ (k : Tok) (v : List PseudoSequence), (k, v) ∈ m → amapGet m k = v := by
  intro m
  induction m with
  | nil => intro _ k v h; simp at h
  | cons e rest ih =>
    obtain ⟨k0, v0⟩ := e
    intro hnd k v hmem
    have hnd' : (rest.map Prod.fst).Nodup := (List.nodup_cons.mp hnd).2
    have hk0 : k0 ∉ rest.map Prod.fst := (List.nodup_cons.mp hnd).1
    rcases List.mem_cons.mp hmem with heq | hmem'
    · obtain ⟨rfl, rfl⟩ := Prod.mk.injEq .. ▸ heq
      simp [amapGet]
    · by_cases hk : k0 = k
      · subst hk
        exfalso
        exact hk0 (List.mem_map.mpr ⟨(k0, v), hmem', rfl⟩)
      · simp only [amapGet, if_neg hk]
        exact ih hnd' k v hmem'

/-- Consequences of `ExtOne` used in the fold invariants. -/
theorem extOne_nodup {sid : Nat} {l l2 : List PseudoSequence}
    (h : ExtOne sid l l2)
    (hnd : (l.map PseudoSequence.sequence_id).Nodup)
    (hni : sid ∉ l.map PseudoSequence.sequence_id) :
    (l2.map PseudoSequence.sequence_id).Nodup := by
  rcases h with rfl | ⟨j, rfl, -⟩
  · exact hnd
  · rw [List.map_append]
    simp [List.nodup_append, hnd, hni]

theorem extOne_mem {sid : Nat} {l l2 : List PseudoSequence}
    (h : ExtOne sid l l2) {p : PseudoSequence} (hp : p ∈ l2) :
    p ∈ l ∨ p.sequence_id = sid := by
  rcases h with rfl | ⟨j, rfl, -⟩
  · exact Or.inl hp
  · rcases List.mem_append.mp hp with hp' | hp'
    · exact Or.inl hp'
    · rw [List.mem_singleton] at hp'
      subst hp'
      exact Or.inr rfl

/-- Fold invariant for the single-path candidate collection: starting
from a map whose lists have pairwise-distinct sequence ids drawn from
`processed`, scanning pseudo-sequences with fresh pairwise-distinct ids
keeps every list's ids pairwise distinct, drawn from
`processed ++ scanned ids`. -/
theorem scanSingle_fold_inv (db : Database) :
    ∀ (psl : List PseudoSequence) (m0 : AMap) (processed : List Nat),
      (∀ item, ((amapGet m0 item).map PseudoSequence.sequence_id).Nodup) →
      (∀ item p, p ∈ amapGet m0 item → p.sequence_id ∈ processed) →
      (∀ ps ∈ psl, ps.sequence_id ∉ processed) →
      ((psl.map PseudoSequence.sequence_id).Nodup) →
      ((∀ item, ((amapGet (psl.foldl
          (fun m ps =>
            scanSeqSingle ps.sequence_id ps.index_first_item
              (((dbGet db ps.sequence_id).getD []).drop ps.index_first_item) m) m0)
          item).map PseudoSequence.sequence_id).Nodup) ∧
       (∀ item p, p ∈ amapGet (psl.foldl
          (fun m ps =>
            scanSeqSingle ps.sequence_id ps.index_first_item
              (((dbGet db ps.sequence_id).getD []).drop ps.index_first_item) m) m0)
          item → p.sequence_id ∈ processed ++ psl.map PseudoSequence.sequence_id)) := by
  intro psl
  induction psl with
  | nil =>
    intro m0 processed h1 h2 _ _
    refine ⟨h1, ?_⟩
    intro item p hp
    simpa using h2 item p hp
  | cons ps rest ih =>
    intro m0 processed h1 h2 hfresh hnd
    rw [List.foldl_cons]
    set m1 := scanSeqSingle ps.sequence_id ps.index_first_item
      (((dbGet db ps.sequence_id).getD []).drop ps.index_first_item) m0 with hm1
    have hext : ∀ item, ExtOne ps.sequence_id (amapGet m0 item) (amapGet m1 item) :=
      fun item => extOne_scanSeqSingle ps.sequence_id _ _ m0 item
    have h1' : ∀ item, ((amapGet m1 item).map PseudoSequence.sequence_id).Nodup := by
      intro item
      refine extOne_nodup (hext item) (h1 item) ?_
      intro hmem
      obtain ⟨p, hp, hps⟩ := List.mem_map.mp hmem
      exact hfresh ps (List.mem_cons_self _ _) (hps ▸ h2 item p hp)
    have h2' : ∀ item p, p ∈ amapGet m1 item →
        p.sequence_id ∈ processed ++ [ps.sequence_id] := by
      intro item p hp
      rcases extOne_mem (hext item) hp with hp' | hps
      · exact List.mem_append.mpr (Or.inl (h2 item p hp'))
      · exact List.mem_append.mpr (Or.inr (by simp [hps]))
    have hndrest : (rest.map PseudoSequence.sequence_id).Nodup :=
      (List.nodup_cons.mp (by simpa using hnd)).2
    have hheadni : ps.sequence_id ∉ rest.map PseudoSequence.sequence_id :=
      (List.nodup_cons.mp (by simpa using hnd)).1
    have hfresh' : ∀ q ∈ rest, q.sequence_id ∉ processed ++ [ps.sequence_id] := by
      intro q hq hmem
      rcases List.mem_append.mp hmem with hmem' | hmem'
      · exact hfresh q (List.mem_cons.mpr (Or.inr hq)) hmem'
      · rw [List.mem_singleton] at hmem'
        exact hheadni (hmem' ▸ List.mem_map.mpr ⟨q, hq, rfl⟩)
    obtain ⟨c1, c2⟩ := ih m1 (processed ++ [ps.sequence_id]) h1' h2' hfresh' hndrest
    refine ⟨c1, ?_⟩
    intro item p hp
    have := c2 item p hp
    simpa [List.append_assoc] using this

/-- Keys of the single-path candidate map are unique. -/
theorem scanSingle_keys_nodup (db : Database) (psl : List PseudoSequence) :
    ((scanSingle db psl).map Prod.fst).Nodup := by
  unfold scanSingle
  suffices h : ∀ (l : List PseudoSequence) (m0 : AMap), (m0.map Prod.fst).Nodup →
      ((l.foldl (fun m ps =>
        scanSeqSingle ps.sequence_id ps.index_first_item
          (((dbGet db ps.sequence_id).getD []).drop ps.index_first_item) m) m0).map
        Prod.fst).Nodup by
    exact h psl [] (by simp)
  intro l
  induction l with
  | nil => intro m0 h; exact h
  | cons ps rest ih =>
    intro m0 h
    rw [List.foldl_cons]
    exact ih _ (scanSeqSingle_keys_nodup ps.sequence_id _ _ m0 h)

/-- Fold invariant for the multi-path candidate collection, jointly for
the i-extension and s-extension maps. -/
theorem scanMultiDb_fold_inv (db : Database) (buf : List Tok) (lastBufPos firstPosLast : Nat) :
    ∀ (psl : List PseudoSequence) (acc : AMap × AMap × Nat) (processed : List Nat),
      (∀ item, ((amapGet acc.1 item).map PseudoSequence.sequence_id).Nodup) →
      (∀ item, ((amapGet acc.2.1 item).map PseudoSequence.sequence_id).Nodup) →
      (∀ item p, p ∈ amapGet acc.1 item → p.sequence_id ∈ processed) →
      (∀ item p, p ∈ amapGet acc.2.1 item → p.sequence_id ∈ processed) →
      (∀ ps ∈ psl, ps.sequence_id ∉ processed) →
      ((psl.map PseudoSequence.sequence_id).Nodup) →
      ((∀ item, ((amapGet (psl.foldl
          (fun acc ps =>
            let seq := (dbGet db ps.sequence_id).getD []
            let prevTok := seq.getD (ps.index_first_item - 1) 0
            let s0 : ScanMulti :=
              ⟨acc.1, acc.2.1, decide (prevTok ≠ -1), true, firstPosLast, acc.2.2⟩
            let s :=
              scanSeqMulti buf lastBufPos firstPosLast ps.sequence_id ps.index_first_item
                (seq.drop ps.index_first_item) s0
            (s.mapPost, s.mapNorm, s.hiR)) acc).1
          item).map PseudoSequence.sequence_id).Nodup) ∧
       (∀ item, ((amapGet (psl.foldl
          (fun acc ps =>
            let seq := (dbGet db ps.sequence_id).getD []
            let prevTok := seq.getD (ps.index_first_item - 1) 0
            let s0 : ScanMulti :=
              ⟨acc.1, acc.2.1, decide (prevTok ≠ -1), true, firstPosLast, acc.2.2⟩
            let s :=
              scanSeqMulti buf lastBufPos firstPosLast ps.sequence_id ps.index_first_item
                (seq.drop ps.index_first_item) s0
            (s.mapPost, s.mapNorm, s.hiR)) acc).2.1
          item).map PseudoSequence.sequence_id).Nodup) ∧
       (∀ item p, p ∈ amapGet (psl.foldl
          (fun acc ps =>
            let seq := (dbGet db ps.sequence_id).getD []
            let prevTok := seq.getD (ps.index_first_item - 1) 0
            let s0 : ScanMulti :=
              ⟨acc.1, acc.2.1, decide (prevTok ≠ -1), true, firstPosLast, acc.2.2⟩
            let s :=
              scanSeqMulti buf lastBufPos firstPosLast ps.sequence_id ps.index_first_item
                (seq.drop ps.index_first_item) s0
            (s.mapPost, s.mapNorm, s.hiR)) acc).1
          item → p.sequence_id ∈ processed ++ psl.map PseudoSequence.sequence_id) ∧
       (∀ item p, p ∈ amapGet (psl.foldl
          (fun acc ps =>
            let seq := (dbGet db ps.sequence_id).getD []
            let prevTok := seq.getD (ps.index_first_item - 1) 0
            let s0 : ScanMulti :=
              ⟨acc.1, acc.2.1, decide (prevTok ≠ -1), true, firstPosLast, acc.2.2⟩
            let s :=
              scanSeqMulti buf lastBufPos firstPosLast ps.sequence_id ps.index_first_item
                (seq.drop ps.index_first_item) s0
            (s.mapPost, s.mapNorm, s.hiR)) acc).2.1
          item → p.sequence_id ∈ processed ++ psl.map PseudoSequence.sequence_id)) := by
  intro psl
  induction psl with
  | nil =>
    intro acc processed hP1 hN1 hP2 hN2 _ _
    refine ⟨hP1, hN1, ?_, ?_⟩
    · intro item p hp
      simpa using hP2 item p hp
    · intro item p hp
      simpa using hN2 item p hp
  | cons ps rest ih =>
    intro acc processed hP1 hN1 hP2 hN2 hfresh hnd
    rw [List.foldl_cons]
    set seq := (dbGet db ps.sequence_id).getD [] with hseq
    set s0 : ScanMulti :=
      ⟨acc.1, acc.2.1, decide (seq.getD (ps.index_first_item - 1) 0 ≠ -1),
        true, firstPosLast, acc.2.2⟩ with hs0
    set s := scanSeqMulti buf lastBufPos firstPosLast ps.sequence_id ps.index_first_item
      (seq.drop ps.index_first_item) s0 with hs
    have hext : ∀ item,
        ExtOne ps.sequence_id (amapGet acc.1 item) (amapGet s.mapPost item) ∧
        ExtOne ps.sequence_id (amapGet acc.2.1 item) (amapGet s.mapNorm item) := by
      intro item
      have := extOne_scanSeqMulti buf lastBufPos firstPosLast ps.sequence_id
        (seq.drop ps.index_first_item) ps.index_first_item s0 item
      exact this
    have hP1' : ∀ item, ((amapGet s.mapPost item).map PseudoSequence.sequence_id).Nodup := by
      intro item
      refine extOne_nodup (hext item).1 (hP1 item) ?_
      intro hmem
      obtain ⟨p, hp, hps⟩ := List.mem_map.mp hmem
      exact hfresh ps (List.mem_cons_self _ _) (hps ▸ hP2 item p hp)
    have hN1' : ∀ item, ((amapGet s.mapNorm item).map PseudoSequence.sequence_id).Nodup := by
      intro item
      refine extOne_nodup (hext item).2 (hN1 item) ?_
      intro hmem
      obtain ⟨p, hp, hps⟩ := List.mem_map.mp hmem
      exact hfresh ps (List.mem_cons_self _ _) (hps ▸ hN2 item p hp)
    have hP2' : ∀ item p, p ∈ amapGet s.mapPost item →
        p.sequence_id ∈ processed ++ [ps.sequence_id] := by
      intro item p hp
      rcases extOne_mem (hext item).1 hp with hp' | hps
      · exact List.mem_append.mpr (Or.inl (hP2 item p hp'))
      · exact List.mem_append.mpr (Or.inr (by simp [hps]))
    have hN2' : ∀ item p, p ∈ amapGet s.mapNorm item →
        p.sequence_id ∈ processed ++ [ps.sequence_id] := by
      intro item p hp
      rcases extOne_mem (hext item).2 hp with hp' | hps
      · exact List.mem_append.mpr (Or.inl (hN2 item p hp'))
      · exact List.mem_append.mpr (Or.inr (by simp [hps]))
    have hndrest : (rest.map PseudoSequence.sequence_id).Nodup :=
      (List.nodup_cons.mp (by simpa using hnd)).2
    have hheadni : ps.sequence_id ∉ rest.map PseudoSequence.sequence_id :=
      (List.nodup_cons.mp (by simpa using hnd)).1
    have hfresh' : ∀ q ∈ rest, q.sequence_id ∉ processed ++ [ps.sequence_id] := by
      intro q hq hmem
      rcases List.mem_append.mp hmem with hmem' | hmem'
      · exact hfresh q (List.mem_cons.mpr (Or.inr hq)) hmem'
      · rw [List.mem_singleton] at hmem'
        exact hheadni (hmem' ▸ List.mem_map.mpr ⟨q, hq, rfl⟩)
    obtain ⟨c1, c2, c3, c4⟩ := ih (s.mapPost, s.mapNorm, s.hiR)
      (processed ++ [ps.sequence_id]) hP1' hN1' hP2' hN2' hfresh' hndrest
    refine ⟨c1, c2, ?_, ?_⟩
    · intro item p hp
      have := c3 item p hp
      simpa [List.append_assoc] using this
    · intro item p hp
      have := c4 item p hp
      simpa [List.append_assoc] using this

/-- Keys of the multi-path candidate maps are unique. -/
theorem scanMultiDb_keys_nodup (db : Database) (buf : List Tok)
    (lastBufPos firstPosLast : Nat) (psl : List PseudoSequence) :
    (((scanMultiDb db buf lastBufPos firstPosLast psl).1.map Prod.fst).Nodup ∧
     ((scanMultiDb db buf lastBufPos firstPosLast psl).2.1.map Prod.fst).Nodup) := by
  unfold scanMultiDb
  suffices h : ∀ (l : List PseudoSequence) (acc : AMap × AMap × Nat),
      (acc.1.map Prod.fst).Nodup → (acc.2.1.map Prod.fst).Nodup →
      (((l.foldl
          (fun acc ps =>
            let seq := (dbGet db ps.sequence_id).getD []
            let prevTok := seq.getD (ps.index_first_item - 1) 0
            let s0 : ScanMulti :=
              ⟨acc.1, acc.2.1, decide (prevTok ≠ -1), true, firstPosLast, acc.2.2⟩
            let s :=
              scanSeqMulti buf lastBufPos firstPosLast ps.sequence_id ps.index_first_item
                (seq.drop ps.index_first_item) s0
            (s.mapPost, s.mapNorm, s.hiR)) acc).1.map Prod.fst).Nodup ∧
       ((l.foldl
          (fun acc ps =>
            let seq := (dbGet db ps.sequence_id).getD []
            let prevTok := seq.getD (ps.index_first_item - 1) 0
            let s0 : ScanMulti :=
              ⟨acc.1, acc.2.1, decide (prevTok ≠ -1), true, firstPosLast, acc.2.2⟩
            let s :=
              scanSeqMulti buf lastBufPos firstPosLast ps.sequence_id ps.index_first_item
                (seq.drop ps.index_first_item) s0
            (s.mapPost, s.mapNorm, s.hiR)) acc).2.1.map Prod.fst).Nodup) by
    exact h psl ([], [], 0) (by simp) (by simp)
  intro l
  induction l with
  | nil => intro acc h1 h2; exact ⟨h1, h2⟩
  | cons ps rest ih =>
    intro acc h1 h2
    rw [List.foldl_cons]
    have hk := scanSeqMulti_keys_nodup buf lastBufPos firstPosLast ps.sequence_id
      (((dbGet db ps.sequence_id).getD []).drop ps.index_first_item) ps.index_first_item
      ⟨acc.1, acc.2.1,
        decide (((dbGet db ps.sequence_id).getD []).getD (ps.index_first_item - 1) 0 ≠ -1),
        true, firstPosLast, acc.2.2⟩ h1 h2
    exact ih _ hk.1 hk.2

/-- A list with pairwise-distinct entries all drawn from another list is
no longer than it. -/
theorem nodup_subset_length_le {α : Type} [DecidableEq α] (l1 l2 : List α)
    (h1 : l1.Nodup) (hsub : ∀ x ∈ l1, x ∈ l2) : l1.length ≤ l2.length := by
  calc l1.length = l1.toFinset.card := (List.toFinset_card_of_nodup h1).symm
    _ ≤ l2.toFinset.card := by
        apply Finset.card_le_card
        intro x hx
        exact List.mem_toFinset.mpr (hsub x (List.mem_toFinset.mp hx))
    _ ≤ l2.length := l2.toFinset_card_le

/-- C4.  Containment/dedup invariant: when the projected database passed
to either recursive growth step has pairwise-distinct sequence ids,
every candidate list built with the last-recorded-id check (in
`_recursion_single_items` and in both maps of `_recursion_multi`) also
has pairwise-distinct sequence ids, so each input sequence contributes
at most once to any candidate's support. -/
theorem dedup_candidate_lists_nodup (db : Database) (database : List PseudoSequence)
    (hnd : (database.map PseudoSequence.sequence_id).Nodup) :
    (∀ e ∈ scanSingle db database, (e.2.map PseudoSequence.sequence_id).Nodup) ∧
    (∀ (buf : List Tok) (lastBufPos firstPosLast : Nat),
      (∀ e ∈ (scanMultiDb db buf lastBufPos firstPosLast database).1,
        (e.2.map PseudoSequence.sequence_id).Nodup) ∧
      (∀ e ∈ (scanMultiDb db buf lastBufPos firstPosLast database).2.1,
        (e.2.map PseudoSequence.sequence_id).Nodup)) := by
  constructor
  · intro e he
    obtain ⟨c1, -⟩ := scanSingle_fold_inv db database [] []
      (by intro item; simp [amapGet]) (by intro item p hp; simp [amapGet] at hp)
      (by intro ps _; simp) hnd
    have hkeys := scanSingle_keys_nodup db database
    have hval : amapGet (scanSingle db database) e.1 = e.2 :=
      amapGet_of_mem _ hkeys e.1 e.2 he
    rw [← hval]
    exact c1 e.1
  · intro buf lastBufPos firstPosLast
    obtain ⟨c1, c2, -, -⟩ := scanMultiDb_fold_inv db buf lastBufPos firstPosLast database
      ([], [], 0) []
      (by intro item; simp [amapGet]) (by intro item; simp [amapGet])
      (by intro item p hp; simp [amapGet] at hp) (by intro item p hp; simp [amapGet] at hp)
      (by intro ps _; simp) hnd
    obtain ⟨k1, k2⟩ := scanMultiDb_keys_nodup db buf lastBufPos firstPosLast database
    constructor
    · intro e he
      have hval : amapGet (scanMultiDb db buf lastBufPos firstPosLast database).1 e.1 = e.2 :=
        amapGet_of_mem _ k1 e.1 e.2 he
      rw [← hval]
      exact c1 e.1
    · intro e he
      have hval : amapGet (scanMultiDb db buf lastBufPos firstPosLast database).2.1 e.1 = e.2 :=
        amapGet_of_mem _ k2 e.1 e.2 he
      rw [← hval]
      exact c2 e.1

/-- Witness for `dedup_candidate_lists_nodup` on a two-sequence
projected database. -/
theorem dedup_candidate_lists_nodup_witness :
    (([⟨0, 1⟩, ⟨1, 1⟩] : List PseudoSequence).map PseudoSequence.sequence_id).Nodup ∧
    (∀ e ∈ scanSingle [some [1, 3, -2], some [1, 3, -2]] [⟨0, 1⟩, ⟨1, 1⟩],
      (e.2.map PseudoSequence.sequence_id).Nodup) :=
  ⟨by decide,
    (dedup_candidate_lists_nodup [some [1, 3, -2], some [1, 3, -2]] [⟨0, 1⟩, ⟨1, 1⟩]
      (by decide)).1⟩

/-- C3.  Anti-monotonicity of support: when the projected database
passed to either recursive growth step has pairwise-distinct sequence
ids, every candidate list it builds is no longer than the projected
database itself, so the support of every one-item extension is at most
the support of the pattern being extended. -/
theorem support_anti_monotone (db : Database) (database : List PseudoSequence)
    (hnd : (database.map PseudoSequence.sequence_id).Nodup) :
    (∀ e ∈ scanSingle db database, e.2.length ≤ database.length) ∧
    (∀ (buf : List Tok) (lastBufPos firstPosLast : Nat),
      (∀ e ∈ (scanMultiDb db buf lastBufPos firstPosLast database).1,
        e.2.length ≤ database.length) ∧
      (∀ e ∈ (scanMultiDb db buf lastBufPos firstPosLast database).2.1,
        e.2.length ≤ database.length)) := by
  have hlen : ∀ (l : List PseudoSequence),
      (l.map PseudoSequence.sequence_id).Nodup →
      (∀ p ∈ l, p.sequence_id ∈ database.map PseudoSequence.sequence_id) →
      l.length ≤ database.length := by
    intro l hl hsub
    have : (l.map PseudoSequence.sequence_id).length ≤
        (database.map PseudoSequence.sequence_id).length := by
      apply nodup_subset_length_le _ _ hl
      intro x hx
      obtain ⟨p, hp, rfl⟩ := List.mem_map.mp hx
      exact hsub p hp
    simpa using this
  constructor
  · intro e he
    obtain ⟨c1, c2⟩ := scanSingle_fold_inv db database [] []
      (by intro item; simp [amapGet]) (by intro item p hp; simp [amapGet] at hp)
      (by intro ps _; simp) hnd
    have hkeys := scanSingle_keys_nodup db database
    have hval : amapGet (scanSingle db database) e.1 = e.2 :=
      amapGet_of_mem _ hkeys e.1 e.2 he
    refine hlen e.2 (hval ▸ c1 e.1) ?_
    intro p hp
    have := c2 e.1 p (hval ▸ hp)
    simpa using this
  · intro buf lastBufPos firstPosLast
    obtain ⟨c1, c2, c3, c4⟩ := scanMultiDb_fold_inv db buf lastBufPos firstPosLast database
      ([], [], 0) []
      (by intro item; simp [amapGet]) (by intro item; simp [amapGet])
      (by intro item p hp; simp [amapGet] at hp) (by intro item p hp; simp [amapGet] at hp)
      (by intro ps _; simp) hnd
    obtain ⟨k1, k2⟩ := scanMultiDb_keys_nodup db buf lastBufPos firstPosLast database
    constructor
    · intro e he
      have hval : amapGet (scanMultiDb db buf lastBufPos firstPosLast database).1 e.1 = e.2 :=
        amapGet_of_mem _ k1 e.1 e.2 he
      refine hlen e.2 (hval ▸ c1 e.1) ?_
      intro p hp
      have := c3 e.1 p (hval ▸ hp)
      simpa using this
    · intro e he
      have hval : amapGet (scanMultiDb db buf lastBufPos firstPosLast database).2.1 e.1 = e.2 :=
        amapGet_of_mem _ k2 e.1 e.2 he
      refine hlen e.2 (hval ▸ c2 e.1) ?_
      intro p hp
      have := c4 e.1 p (hval ▸ hp)
      simpa using this

/-- Witness for `support_anti_monotone` on a two-sequence projected
database. -/
theorem support_anti_monotone_witness :
    (([⟨0, 1⟩, ⟨1, 1⟩] : List PseudoSequence).map PseudoSequence.sequence_id).Nodup ∧
    (∀ e ∈ scanSingle [some [1, 3, -2], some [1, 3, -2]] [⟨0, 1⟩, ⟨1, 1⟩],
      e.2.length ≤ ([⟨0, 1⟩, ⟨1, 1⟩] : List PseudoSequence).length) :=
  ⟨by decide,
    (support_anti_monotone [some [1, 3, -2], some [1, 3, -2]] [⟨0, 1⟩, ⟨1, 1⟩]
      (by decide)).1⟩

/-! ### C7: the minimum-length filter is output-only -/

/-- Total item count of an emitted record. -/
def itemCountOf (r : PatRecord) : Nat :=
  (r.itemsets.map List.length).sum

/-- Relation between the run with minimum length 1 and the run with
minimum length `m`: same buffer and instrumentation, the restricted
run's records are the filtered records of the unrestricted run, and in
both runs the pattern counter equals the number of records written. -/
def MRel (p : PatRecord → Bool) (st1 st2 : MState) : Prop :=
  st2.buffer = st1.buffer ∧ st2.hi = st1.hi ∧
  st2.records = st1.records.filter p ∧
  st1.patternCount = st1.records.length ∧
  st2.patternCount = st2.records.length

theorem mrel_bset {p : PatRecord → Bool} {st1 st2 : MState} (h : MRel p st1 st2)
    (i : Nat) (v : Tok) : MRel p (st1.bset i v) (st2.bset i v) := by
  obtain ⟨hb, hh, hr, hc1, hc2⟩ := h
  exact ⟨by simp [MState.bset, hb], by simp [MState.bset, hh], by simp [MState.bset, hr],
    by simp [MState.bset, hc1], by simp [MState.bset, hc2]⟩

theorem mrel_touch {p : PatRecord → Bool} {st1 st2 : MState} (h : MRel p st1 st2)
    (i : Nat) : MRel p (st1.touch i) (st2.touch i) := by
  obtain ⟨hb, hh, hr, hc1, hc2⟩ := h
  exact ⟨by simp [MState.touch, hb], by simp [MState.touch, hh], by simp [MState.touch, hr],
    by simp [MState.touch, hc1], by simp [MState.touch, hc2]⟩

/-- The decoder keeps every positive token, so the item count of a
decoded record equals the positive-token count of the buffer prefix. -/
theorem decodeTokens_total :
    ∀ (toks cur : List Tok),
      ((decodeTokens toks cur).map List.length).sum =
        cur.length + toks.countP (fun t => decide (0 < t)) := by
  intro toks
  induction toks with
  | nil =>
    intro cur
    by_cases hc : cur.isEmpty
    · have hc' : cur = [] := List.isEmpty_iff.mp hc
      subst hc'
      simp [decodeTokens]
    · simp [decodeTokens, hc]
  | cons tok rest ih =>
    intro cur
    by_cases hsep : tok = -1
    · subst hsep
      by_cases hc : cur.isEmpty
      · have hc' : cur = [] := List.isEmpty_iff.mp hc
        subst hc'
        simp [decodeTokens, ih, List.countP_cons]
      · simp [decodeTokens, hc, ih, List.countP_cons]
    · by_cases h1 : (0 : Int) < tok
      · have : decodeTokens (tok :: rest) cur = decodeTokens rest (cur ++ [tok]) := by
          simp [decodeTokens, hsep, h1]
        rw [this, ih]
        simp [List.countP_cons, h1]
        omega
      · have : decodeTokens (tok :: rest) cur = decodeTokens rest cur := by
          simp [decodeTokens, hsep, h1]
        rw [this, ih]
        simp [List.countP_cons, h1]

theorem itemCount_decodeBuffer (buf : List Tok) (tokensEndIdx : Nat) (n : Nat) :
    itemCountOf ⟨decodeBuffer buf tokensEndIdx, n⟩ =
      patternLengthInBuffer buf tokensEndIdx := by
  unfold itemCountOf decodeBuffer patternLengthInBuffer
  rw [decodeTokens_total]
  simp

/-- Branch normal form of `_write_pattern_tokens`. -/
theorem writePatternTokens_eq (minLen : Nat) (st : MState) (tokensEndIdx : Nat)
    (q : List PseudoSequence) :
    writePatternTokens minLen st tokensEndIdx q =
      if patternLengthInBuffer st.buffer tokensEndIdx < minLen then st.touch tokensEndIdx
      else ⟨st.buffer, st.patternCount + 1,
            st.records ++ [⟨decodeBuffer st.buffer tokensEndIdx, q.length⟩],
            max st.hi tokensEndIdx⟩ := rfl

theorem mrel_writePatternTokens {m : Nat} (hm : 1 ≤ m) {st1 st2 : MState}
    (h : MRel (fun r => decide (m ≤ itemCountOf r)) st1 st2)
    (tokensEndIdx : Nat) (q : List PseudoSequence) :
    MRel (fun r => decide (m ≤ itemCountOf r))
      (writePatternTokens 1 st1 tokensEndIdx q)
      (writePatternTokens m st2 tokensEndIdx q) := by
  obtain ⟨hb, hh, hr, hc1, hc2⟩ := h
  rw [writePatternTokens_eq, writePatternTokens_eq, hb]
  set L := patternLengthInBuffer st1.buffer tokensEndIdx with hL
  have hrec : itemCountOf ⟨decodeBuffer st1.buffer tokensEndIdx, q.length⟩ = L :=
    itemCount_decodeBuffer st1.buffer tokensEndIdx q.length
  by_cases hL1 : L < 1
  · rw [if_pos hL1, if_pos (by omega)]
    exact mrel_touch ⟨hb, hh, hr, hc1, hc2⟩ tokensEndIdx
  · rw [if_neg hL1]
    by_cases hLm : L < m
    · rw [if_pos hLm]
      refine ⟨by simp [MState.touch, hb], by simp [MState.touch, hh], ?_, ?_, ?_⟩
      · have hp : (decide (m ≤ itemCountOf
            ⟨decodeBuffer st1.buffer tokensEndIdx, q.length⟩)) = false := by
          rw [hrec]
          simp only [decide_eq_false_iff_not]
          omega
        simp [MState.touch, hr, List.filter_append, hp]
      · simp [hc1]
      · simp [MState.touch, hc2]
    · rw [if_neg hLm]
      refine ⟨rfl, by simp [hh], ?_, ?_, ?_⟩
      · have hp : (decide (m ≤ itemCountOf
            ⟨decodeBuffer st1.buffer tokensEndIdx, q.length⟩)) = true := by
          rw [hrec]
          simp only [decide_eq_true_eq]
          omega
        simp [hr, List.filter_append, hp, hb]
      · simp [hc1]
      · simp [hc2, hr]

theorem mrel_writeSingle {m : Nat} (hm : 1 ≤ m) {st1 st2 : MState}
    (h : MRel (fun r => decide (m ≤ itemCountOf r)) st1 st2) (item : Tok) (sup : Nat) :
    MRel (fun r => decide (m ≤ itemCountOf r))
      (writeSingle 1 st1 item sup) (writeSingle m st2 item sup) := by
  obtain ⟨hb, hh, hr, hc1, hc2⟩ := h
  unfold writeSingle
  rw [if_neg (by omega)]
  have hco : itemCountOf ⟨[[item]], sup⟩ = 1 := by simp [itemCountOf]
  by_cases hm1 : 1 < m
  · rw [if_pos hm1]
    refine ⟨hb, hh, ?_, ?_, hc2⟩
    · rw [hr, List.filter_append]
      have : (decide (m ≤ itemCountOf ⟨[[item]], sup⟩)) = false := by
        rw [hco]
        simp
        omega
      simp [this]
    · simp [hc1]
  · rw [if_neg hm1]
    refine ⟨hb, hh, ?_, ?_, ?_⟩
    · rw [hr, List.filter_append]
      have : (decide (m ≤ itemCountOf ⟨[[item]], sup⟩)) = true := by
        rw [hco]
        simp
        omega
      simp [this]
    · simp [hc1]
    · simp [hc2]

/-- Components of the level preamble, exposed. -/
theorem multiScanLevel_eq (db : Database) (lastBufPos : Nat) (st : MState)
    (database : List PseudoSequence) :
    multiScanLevel db lastBufPos st database =
      ((scanMultiDb db st.buffer lastBufPos
          (firstPosLastItemsetOf st.buffer lastBufPos) database).1,
       (scanMultiDb db st.buffer lastBufPos
          (firstPosLastItemsetOf st.buffer lastBufPos) database).2.1,
       (st.touch (lastBufPos - 1)).touch
         (scanMultiDb db st.buffer lastBufPos
            (firstPosLastItemsetOf st.buffer lastBufPos) database).2.2) := rfl

theorem goSingle_rel (db : Database) (ms : Int) (maxLen : Nat) {m : Nat} (hm : 1 ≤ m) :
    ∀ (fuel : Nat) (entries : List (Tok × List PseudoSequence)) (k lastBufPos : Nat)
      (st1 st2 : MState),
      MRel (fun r => decide (m ≤ itemCountOf r)) st1 st2 →
      MRel (fun r => decide (m ≤ itemCountOf r))
        (goSingle db ms maxLen 1 fuel k lastBufPos entries st1)
        (goSingle db ms maxLen m fuel k lastBufPos entries st2) := by
  intro fuel
  induction fuel with
  | zero => intro entries k lastBufPos st1 st2 h; exact h
  | succ n ihf =>
    intro entries
    induction entries with
    | nil => intro k lastBufPos st1 st2 h; exact h
    | cons e rest ihe =>
      intro k lastBufPos st1 st2 h
      show MRel (fun r => decide (m ≤ itemCountOf r))
        (goSingle db ms maxLen 1 (n + 1) k lastBufPos rest
          (if ms ≤ (e.2.length : Int) then
            if k < maxLen then
              goSingle db ms maxLen 1 n (k + 1) (lastBufPos + 2) (scanSingle db e.2)
                (writePatternTokens 1 ((st1.bset (lastBufPos + 1) (-1)).bset
                  (lastBufPos + 2) e.1) (lastBufPos + 2) e.2)
            else
              writePatternTokens 1 ((st1.bset (lastBufPos + 1) (-1)).bset
                (lastBufPos + 2) e.1) (lastBufPos + 2) e.2
          else st1))
        (goSingle db ms maxLen m (n + 1) k lastBufPos rest
          (if ms ≤ (e.2.length : Int) then
            if k < maxLen then
              goSingle db ms maxLen m n (k + 1) (lastBufPos + 2) (scanSingle db e.2)
                (writePatternTokens m ((st2.bset (lastBufPos + 1) (-1)).bset
                  (lastBufPos + 2) e.1) (lastBufPos + 2) e.2)
            else
              writePatternTokens m ((st2.bset (lastBufPos + 1) (-1)).bset
                (lastBufPos + 2) e.1) (lastBufPos + 2) e.2
          else st2))
      apply ihe
      by_cases hsup : ms ≤ (e.2.length : Int)
      · rw [if_pos hsup, if_pos hsup]
        have hB := mrel_writePatternTokens hm
          (mrel_bset (mrel_bset h (lastBufPos + 1) (-1)) (lastBufPos + 2) e.1)
          (lastBufPos + 2) e.2
        by_cases hk : k < maxLen
        · rw [if_pos hk, if_pos hk]
          exact ihf (scanSingle db e.2) (k + 1) (lastBufPos + 2) _ _ hB
        · rw [if_neg hk, if_neg hk]
          exact hB
      · rw [if_neg hsup, if_neg hsup]
        exact h

theorem goMulti_rel (db : Database) (ms : Int) (maxLen : Nat) {m : Nat} (hm : 1 ≤ m) :
    ∀ (fuel : Nat) (mapPost mapNorm : AMap) (k lastBufPos : Nat) (st1 st2 : MState),
      MRel (fun r => decide (m ≤ itemCountOf r)) st1 st2 →
      MRel (fun r => decide (m ≤ itemCountOf r))
        (goMulti db ms maxLen 1 fuel k lastBufPos mapPost mapNorm st1)
        (goMulti db ms maxLen m fuel k lastBufPos mapPost mapNorm st2) := by
  intro fuel
  induction fuel with
  | zero => intro mapPost mapNorm k lastBufPos st1 st2 h; exact h
  | succ n ihf =>
    have hnorm : ∀ (l : AMap) (k lastBufPos : Nat) (st1 st2 : MState),
        MRel (fun r => decide (m ≤ itemCountOf r)) st1 st2 →
        MRel (fun r => decide (m ≤ itemCountOf r))
          (l.foldl (fun st e =>
            if ms ≤ (e.2.length : Int) then
              let newPos := lastBufPos + 1
              let stA := (st.bset newPos (-1)).bset (newPos + 1) e.1
              let stB := writePatternTokens 1 stA (newPos + 1) e.2
              if k < maxLen then
                let lv := multiScanLevel db (newPos + 1) stB e.2
                goMulti db ms maxLen 1 n (k + 1) (newPos + 1) lv.1 lv.2.1 lv.2.2
              else stB
            else st) st1)
          (l.foldl (fun st e =>
            if ms ≤ (e.2.length : Int) then
              let newPos := lastBufPos + 1
              let stA := (st.bset newPos (-1)).bset (newPos + 1) e.1
              let stB := writePatternTokens m stA (newPos + 1) e.2
              if k < maxLen then
                let lv := multiScanLevel db (newPos + 1) stB e.2
                goMulti db ms maxLen m n (k + 1) (newPos + 1) lv.1 lv.2.1 lv.2.2
              else stB
            else st) st2) := by
      intro l
      induction l with
      | nil => intro k lastBufPos st1 st2 h; exact h
      | cons e rest ihe =>
        intro k lastBufPos st1 st2 h
        rw [List.foldl_cons, List.foldl_cons]
        apply ihe
        by_cases hsup : ms ≤ (e.2.length : Int)
        · simp only [if_pos hsup]
          have hB := mrel_writePatternTokens hm
            (mrel_bset (mrel_bset h (lastBufPos + 1) (-1)) (lastBufPos + 1 + 1) e.1)
            (lastBufPos + 1 + 1) e.2
          by_cases hk : k < maxLen
          · simp only [if_pos hk, multiScanLevel_eq]
            rw [hB.1]
            exact ihf _ _ (k + 1) (lastBufPos + 1 + 1) _ _
              (mrel_touch (mrel_touch hB (lastBufPos + 1 + 1 - 1)) _)
          · simp only [if_neg hk]
            exact hB
        · simp only [if_neg hsup]
          exact h
    have hpost : ∀ (l : AMap) (k lastBufPos : Nat) (st1 st2 : MState),
        MRel (fun r => decide (m ≤ itemCountOf r)) st1 st2 →
        MRel (fun r => decide (m ≤ itemCountOf r))
          (l.foldl (fun st e =>
            if ms ≤ (e.2.length : Int) then
              let newPos := lastBufPos + 1
              let stA := st.bset newPos e.1
              let stB := writePatternTokens 1 stA newPos e.2
              if k < maxLen then
                let lv := multiScanLevel db newPos stB e.2
                goMulti db ms maxLen 1 n (k + 1) newPos lv.1 lv.2.1 lv.2.2
              else stB
            else st) st1)
          (l.foldl (fun st e =>
            if ms ≤ (e.2.length : Int) then
              let newPos := lastBufPos + 1
              let stA := st.bset newPos e.1
              let stB := writePatternTokens m stA newPos e.2
              if k < maxLen then
                let lv := multiScanLevel db newPos stB e.2
                goMulti db ms maxLen m n (k + 1) newPos lv.1 lv.2.1 lv.2.2
              else stB
            else st) st2) := by
      intro l
      induction l with
      | nil => intro k lastBufPos st1 st2 h; exact h
      | cons e rest ihe =>
        intro k lastBufPos st1 st2 h
        rw [List.foldl_cons, List.foldl_cons]
        apply ihe
        by_cases hsup : ms ≤ (e.2.length : Int)
        · simp only [if_pos hsup]
          have hB := mrel_writePatternTokens hm
            (mrel_bset h (lastBufPos + 1) e.1) (lastBufPos + 1) e.2
          by_cases hk : k < maxLen
          · simp only [if_pos hk, multiScanLevel_eq]
            rw [hB.1]
            exact ihf _ _ (k + 1) (lastBufPos + 1) _ _
              (mrel_touch (mrel_touch hB (lastBufPos + 1 - 1)) _)
          · simp only [if_neg hk]
            exact hB
        · simp only [if_neg hsup]
          exact h
    intro mapPost mapNorm k lastBufPos st1 st2 h
    exact hnorm mapNorm k lastBufPos _ _ (hpost mapPost k lastBufPos st1 st2 h)

theorem mrel_initState (p : PatRecord → Bool) : MRel p initState initState := by
  refine ⟨rfl, rfl, rfl, rfl, rfl⟩

theorem prefixspanSingle_fold_rel (db : Database) (ms : Int) (maxLen : Nat)
    {m : Nat} (hm : 1 ≤ m) :
    ∀ (l : SidMap) (st1 st2 : MState),
      MRel (fun r => decide (m ≤ itemCountOf r)) st1 st2 →
      MRel (fun r => decide (m ≤ itemCountOf r))
        (l.foldl (fun st e =>
          if ms ≤ (e.2.length : Int) then
            let st := writeSingle 1 st e.1 e.2.length
            if 1 < maxLen then
              recursionSingleItems db ms maxLen 1 maxLen
                (buildProjSingle db e.1 e.2) 2 0 (st.bset 0 e.1)
            else st
          else st) st1)
        (l.foldl (fun st e =>
          if ms ≤ (e.2.length : Int) then
            let st := writeSingle m st e.1 e.2.length
            if 1 < maxLen then
              recursionSingleItems db ms maxLen m maxLen
                (buildProjSingle db e.1 e.2) 2 0 (st.bset 0 e.1)
            else st
          else st) st2) := by
  intro l
  induction l with
  | nil => intro st1 st2 h; exact h
  | cons e rest ihe =>
    intro st1 st2 h
    rw [List.foldl_cons, List.foldl_cons]
    apply ihe
    by_cases hsup : ms ≤ (e.2.length : Int)
    · simp only [if_pos hsup]
      have hW := mrel_writeSingle hm h e.1 e.2.length
      by_cases hmax : 1 < maxLen
      · simp only [if_pos hmax]
        exact goSingle_rel db ms maxLen hm maxLen _ 2 0 _ _ (mrel_bset hW 0 e.1)
      · simp only [if_neg hmax]
        exact hW
    · simp only [if_neg hsup]
      exact h

theorem prefixspanSingle_rel (mAll : SidMap) (ms : Int) (maxLen : Nat)
    (db0 : List (List Tok)) {m : Nat} (hm : 1 ≤ m) :
    MRel (fun r => decide (m ≤ itemCountOf r))
      (prefixspanSingle mAll ms maxLen 1 db0)
      (prefixspanSingle mAll ms maxLen m db0) :=
  prefixspanSingle_fold_rel
    (db0.map (pruneSeqSingle
      (fun tok => decide (ms ≤ ((sidMapGet mAll tok).length : Int)))))
    ms maxLen hm mAll initState initState (mrel_initState _)

theorem prefixspanMulti_fold_rel (db : Database) (ms : Int) (maxLen : Nat)
    {m : Nat} (hm : 1 ≤ m) :
    ∀ (l : SidMap) (st1 st2 : MState),
      MRel (fun r => decide (m ≤ itemCountOf r)) st1 st2 →
      MRel (fun r => decide (m ≤ itemCountOf r))
        (l.foldl (fun st e =>
          if ms ≤ (e.2.length : Int) then
            let st := writeSingle 1 st e.1 e.2.length
            if 1 < maxLen then
              recursionMulti db ms maxLen 1 maxLen
                (buildProjMulti db e.1 e.2) 2 0 (st.bset 0 e.1)
            else st
          else st) st1)
        (l.foldl (fun st e =>
          if ms ≤ (e.2.length : Int) then
            let st := writeSingle m st e.1 e.2.length
            if 1 < maxLen then
              recursionMulti db ms maxLen m maxLen
                (buildProjMulti db e.1 e.2) 2 0 (st.bset 0 e.1)
            else st
          else st) st2) := by
  intro l
  induction l with
  | nil => intro st1 st2 h; exact h
  | cons e rest ihe =>
    intro st1 st2 h
    rw [List.foldl_cons, List.foldl_cons]
    apply ihe
    by_cases hsup : ms ≤ (e.2.length : Int)
    · simp only [if_pos hsup]
      have hW := mrel_writeSingle hm h e.1 e.2.length
      by_cases hmax : 1 < maxLen
      · simp only [if_pos hmax]
        unfold recursionMulti
        simp only [multiScanLevel_eq]
        have hWB := mrel_bset hW 0 e.1
        rw [hWB.1]
        exact goMulti_rel db ms maxLen hm maxLen _ _ 2 0 _ _
          (mrel_touch (mrel_touch hWB _) _)
      · simp only [if_neg hmax]
        exact hW
    · simp only [if_neg hsup]
      exact h

theorem prefixspanMulti_rel (mAll : SidMap) (ms : Int) (maxLen : Nat)
    (db0 : List (List Tok)) {m : Nat} (hm : 1 ≤ m) :
    MRel (fun r => decide (m ≤ itemCountOf r))
      (prefixspanMulti mAll ms maxLen 1 db0)
      (prefixspanMulti mAll ms maxLen m db0) :=
  prefixspanMulti_fold_rel
    (db0.map (pruneSeqMulti
      (fun tok => decide (ms ≤ ((sidMapGet mAll tok).length : Int)))))
    ms maxLen hm mAll initState initState (mrel_initState _)

/-- C7.  The minimum-length filter is output-only: the run with minimum
pattern length `minLen` writes exactly those records of the
unrestricted (`minLen = 1`) run whose total item count reaches
`max 1 minLen` — recursion is unaffected, a length-1 pattern survives
only when the effective minimum is 1 — and the pattern count returned
always equals the number of records actually written. -/
theorem min_length_filter_output_only (db0 : List (List Tok)) (s : ℚ)
    (maxLen minLen : Nat) :
    (run db0 s maxLen minLen).records =
      (run db0 s maxLen 1).records.filter
        (fun r => decide (max 1 minLen ≤ itemCountOf r)) ∧
    (run db0 s maxLen minLen).patternCount = (run db0 s maxLen minLen).records.length := by
  have hm : 1 ≤ max 1 minLen := le_max_left 1 minLen
  cases hflag : (findItems db0).2 with
  | true =>
    rw [run_multi_eq db0 s maxLen minLen _ hflag rfl,
      run_multi_eq db0 s maxLen 1 _ hflag rfl]
    have h := prefixspanMulti_rel (findItems db0).1 (minsupAbsOf s db0.length) maxLen db0 hm
    exact ⟨h.2.2.1, h.2.2.2.2⟩
  | false =>
    rw [run_single_eq db0 s maxLen minLen _ hflag rfl,
      run_single_eq db0 s maxLen 1 _ hflag rfl]
    have h := prefixspanSingle_rel (findItems db0).1 (minsupAbsOf s db0.length) maxLen db0 hm
    exact ⟨h.2.2.1, h.2.2.2.2⟩

/-! ### C8 and C10: pattern-length cap and scratch-buffer bounds -/

/-- Setting an index at or beyond the taken prefix does not change it. -/
theorem take_set_of_le {α : Type} (a : α) :
    ∀ (l : List α) (n i : Nat), n ≤ i → (l.set i a).take n = l.take n := by
  intro l
  induction l with
  | nil => intro n i _; simp
  | cons x xs ih =>
    intro n i hni
    cases n with
    | zero => simp
    | succ n' =>
      cases i with
      | zero => omega
      | succ i' =>
        simp only [List.set_cons_succ, List.take_succ_cons]
        rw [ih n' i' (by omega)]

theorem countP_toList_le_one (p : Tok → Bool) (o : Option Tok) :
    (o.toList.countP p) ≤ 1 := by
  cases o with
  | none => simp
  | some a =>
    simp [List.countP_cons]
    split <;> omega

/-- Buffer prefixes of length one hold at most one item. -/
theorem patternLengthInBuffer_zero_le (buf : List Tok) :
    patternLengthInBuffer buf 0 ≤ 1 := by
  unfold patternLengthInBuffer
  calc (buf.take 1).countP (fun t => decide (0 < t)) ≤ (buf.take 1).length :=
        List.countP_le_length _
    _ ≤ 1 := by simpa using List.length_take_le 1 buf

/-- Writing one token just past the prefix grows the item count by at
most one. -/
theorem patLen_set_one (buf : List Tok) (lastBufPos : Nat) (tok : Tok) :
    patternLengthInBuffer (buf.set (lastBufPos + 1) tok) (lastBufPos + 1) ≤
      patternLengthInBuffer buf lastBufPos + 1 := by
  unfold patternLengthInBuffer
  rw [List.take_succ, List.countP_append,
    take_set_of_le tok buf (lastBufPos + 1) (lastBufPos + 1) (le_refl _)]
  have := countP_toList_le_one (fun t => decide (0 < t))
    ((buf.set (lastBufPos + 1) tok)[lastBufPos + 1]?)
  omega

/-- Writing a separator and one token just past the prefix grows the
item count by at most one. -/
theorem patLen_set_two (buf : List Tok) (lastBufPos : Nat) (tok : Tok) :
    patternLengthInBuffer ((buf.set (lastBufPos + 1) (-1)).set (lastBufPos + 2) tok)
      (lastBufPos + 2) ≤ patternLengthInBuffer buf lastBufPos + 1 := by
  unfold patternLengthInBuffer
  rw [List.take_succ, List.countP_append]
  rw [take_set_of_le tok (buf.set (lastBufPos + 1) (-1)) (lastBufPos + 2) (lastBufPos + 2)
    (le_refl _)]
  rw [List.take_succ, List.countP_append,
    take_set_of_le (-1) buf (lastBufPos + 1) (lastBufPos + 1) (le_refl _)]
  have h2 := countP_toList_le_one (fun t => decide (0 < t))
    (((buf.set (lastBufPos + 1) (-1)).set (lastBufPos + 2) tok)[lastBufPos + 2]?)
  have h1 : (((buf.set (lastBufPos + 1) (-1))[lastBufPos + 1]?).toList.countP
      (fun t => decide (0 < t))) = 0 := by
    by_cases h : lastBufPos + 1 < buf.length
    · rw [List.getElem?_set_self (by simpa using h)]
      simp
    · have hnone : (buf.set (lastBufPos + 1) (-1))[lastBufPos + 1]? = none := by
        apply List.getElem?_eq_none
        simpa using Nat.le_of_not_lt h
      rw [hnone]
      simp
  omega

/-- The backward separator walk never moves past its start. -/
theorem firstPosLastItemsetOf_le (buf : List Tok) :
    ∀ p, firstPosLastItemsetOf buf p ≤ p := by
  intro p
  induction p with
  | zero => simp [firstPosLastItemsetOf]
  | succ n ih =>
    unfold firstPosLastItemsetOf
    split
    · omega
    · omega

/-- Cursor and read-bound invariant of one multi-path token step. -/
theorem scanMultiTok_cursor_inv (buf : List Tok) (lastBufPos firstPosLast sid i : Nat)
    (tok : Tok) (s : ScanMulti) (hfp : firstPosLast ≤ lastBufPos)
    (h1 : s.ptm ≤ lastBufPos + 1)
    (h2 : s.inPostfixItemset = false → s.ptm ≤ lastBufPos) :
    ((scanMultiTok buf lastBufPos firstPosLast sid i tok s).ptm ≤ lastBufPos + 1) ∧
    ((scanMultiTok buf lastBufPos firstPosLast sid i tok s).inPostfixItemset = false →
      (scanMultiTok buf lastBufPos firstPosLast sid i tok s).ptm ≤ lastBufPos) ∧
    ((scanMultiTok buf lastBufPos firstPosLast sid i tok s).hiR ≤
      max s.hiR lastBufPos) := by
  unfold scanMultiTok
  by_cases hpos : (0 : Int) < tok
  · rw [if_pos hpos]
    by_cases hpf : s.inPostfixItemset
    · by_cases hfi : s.isFirstItemset <;>
        · simp only [hpf, hfi, if_true, if_false, and_true, and_false, not_true,
            not_false_iff, if_pos, if_neg]
          simp [hpf, hfi]
          omega
    · have hptm : s.ptm ≤ lastBufPos := h2 (by simpa using hpf)
      simp only [hpf]
      simp only [Bool.false_eq_true, if_false, false_and, ite_false]
      simp only [hpf, Bool.false_eq_true, not_false_iff, if_pos, ite_true]
      split
      · rename_i hmatch
        split
        · rename_i hlt
          refine ⟨by simp; omega, ?_, by simp; omega⟩
          intro hc
          simp at hc
        · rename_i hlt
          refine ⟨by simp; omega, by simp [hpf]; omega, by simp; omega⟩
      · refine ⟨by simp [hpf]; omega, by simp [hpf]; omega, by simp; omega⟩
  · rw [if_neg hpos]
    split
    · refine ⟨by simp; omega, by simp; omega, by simp⟩
    · exact ⟨h1, h2, le_max_left _ _⟩

/-- Read bound of the multi-path token loop: the match cursor only reads
buffer positions up to `lastBufPos`. -/
theorem scanSeqMulti_hiR (buf : List Tok) (lastBufPos firstPosLast sid : Nat)
    (hfp : firstPosLast ≤ lastBufPos) :
    ∀ (toks : List Tok) (i : Nat) (s : ScanMulti),
      s.ptm ≤ lastBufPos + 1 →
      (s.inPostfixItemset = false → s.ptm ≤ lastBufPos) →
      (scanSeqMulti buf lastBufPos firstPosLast sid i toks s).hiR ≤
        max s.hiR lastBufPos := by
  intro toks
  induction toks with
  | nil => intro i s _ _; exact le_max_left _ _
  | cons tok rest ih =>
    intro i s h1 h2
    by_cases h2' : tok = -2
    · subst h2'
      have hstep : scanSeqMulti buf lastBufPos firstPosLast sid i (-2 :: rest) s = s := by
        norm_num [scanSeqMulti]
      rw [hstep]
      exact le_max_left _ _
    · have hstep : scanSeqMulti buf lastBufPos firstPosLast sid i (tok :: rest) s =
          scanSeqMulti buf lastBufPos firstPosLast sid (i + 1) rest
            (scanMultiTok buf lastBufPos firstPosLast sid i tok s) := by
        simp [scanSeqMulti, h2']
      rw [hstep]
      obtain ⟨c1, c2, c3⟩ :=
        scanMultiTok_cursor_inv buf lastBufPos firstPosLast sid i tok s hfp h1 h2
      have := ih (i + 1) (scanMultiTok buf lastBufPos firstPosLast sid i tok s) c1 c2
      omega

/-- Read bound of the whole multi-path candidate collection. -/
theorem scanMultiDb_hiR (db : Database) (buf : List Tok) (lastBufPos firstPosLast : Nat)
    (hfp : firstPosLast ≤ lastBufPos) (psl : List PseudoSequence) :
    (scanMultiDb db buf lastBufPos firstPosLast psl).2.2 ≤ lastBufPos := by
  unfold scanMultiDb
  suffices h : ∀ (l : List PseudoSequence) (acc : AMap × AMap × Nat),
      acc.2.2 ≤ lastBufPos →
      (l.foldl (fun acc ps =>
        let seq := (dbGet db ps.sequence_id).getD []
        let prevTok := seq.getD (ps.index_first_item - 1) 0
        let s0 : ScanMulti :=
          ⟨acc.1, acc.2.1, decide (prevTok ≠ -1), true, firstPosLast, acc.2.2⟩
        let s :=
          scanSeqMulti buf lastBufPos firstPosLast ps.sequence_id ps.index_first_item
            (seq.drop ps.index_first_item) s0
        (s.mapPost, s.mapNorm, s.hiR)) acc).2.2 ≤ lastBufPos by
    exact h psl ([], [], 0) (by simp)
  intro l
  induction l with
  | nil => intro acc h; exact h
  | cons ps rest ih =>
    intro acc h
    rw [List.foldl_cons]
    apply ih
    have := scanSeqMulti_hiR buf lastBufPos firstPosLast ps.sequence_id hfp
      (((dbGet db ps.sequence_id).getD []).drop ps.index_first_item) ps.index_first_item
      ⟨acc.1, acc.2.1,
        decide ((((dbGet db ps.sequence_id).getD []).getD (ps.index_first_item - 1) 0) ≠ -1),
        true, firstPosLast, acc.2.2⟩
      (by simp; omega) (by intro _; simpa using hfp)
    simp only at this ⊢
    omega

theorem bset_buffer (st : MState) (i : Nat) (v : Tok) :
    (st.bset i v).buffer = st.buffer.set i v := rfl

theorem bset_hi (st : MState) (i : Nat) (v : Tok) : (st.bset i v).hi = max st.hi i := rfl

theorem bset_records (st : MState) (i : Nat) (v : Tok) :
    (st.bset i v).records = st.records := rfl

theorem touch_buffer (st : MState) (i : Nat) : (st.touch i).buffer = st.buffer := rfl

theorem touch_hi (st : MState) (i : Nat) : (st.touch i).hi = max st.hi i := rfl

theorem touch_records (st : MState) (i : Nat) : (st.touch i).records = st.records := rfl

theorem writePatternTokens_buffer (minLen : Nat) (st : MState) (e : Nat)
    (q : List PseudoSequence) : (writePatternTokens minLen st e q).buffer = st.buffer := by
  rw [writePatternTokens_eq]
  split <;> rfl

theorem writePatternTokens_hi (minLen : Nat) (st : MState) (e : Nat)
    (q : List PseudoSequence) : (writePatternTokens minLen st e q).hi = max st.hi e := by
  rw [writePatternTokens_eq]
  split <;> rfl

theorem writePatternTokens_records_bound {M : Nat} (minLen : Nat) (st : MState) (e : Nat)
    (q : List PseudoSequence) (hminLen : 1 ≤ minLen)
    (hub : patternLengthInBuffer st.buffer e ≤ M)
    (hrec : ∀ r ∈ st.records, 1 ≤ itemCountOf r ∧ itemCountOf r ≤ M) :
    ∀ r ∈ (writePatternTokens minLen st e q).records,
      1 ≤ itemCountOf r ∧ itemCountOf r ≤ M := by
  rw [writePatternTokens_eq]
  split
  · rw [touch_records]
    exact hrec
  · rename_i hskip
    intro r hr
    rcases List.mem_append.mp hr with hr' | hr'
    · exact hrec r hr'
    · rw [List.mem_singleton] at hr'
      subst hr'
      rw [itemCount_decodeBuffer]
      constructor
      · omega
      · exact hub

theorem writeSingle_records_bound {M : Nat} (minLen : Nat) (st : MState) (item : Tok)
    (sup : Nat) (hM : 1 ≤ M)
    (hrec : ∀ r ∈ st.records, 1 ≤ itemCountOf r ∧ itemCountOf r ≤ M) :
    ∀ r ∈ (writeSingle minLen st item sup).records,
      1 ≤ itemCountOf r ∧ itemCountOf r ≤ M := by
  unfold writeSingle
  split
  · exact hrec
  · intro r hr
    rcases List.mem_append.mp hr with hr' | hr'
    · exact hrec r hr'
    · rw [List.mem_singleton] at hr'
      subst hr'
      have : itemCountOf ⟨[[item]], sup⟩ = 1 := by simp [itemCountOf]
      omega

theorem writeSingle_hi (minLen : Nat) (st : MState) (item : Tok) (sup : Nat) :
    (writeSingle minLen st item sup).hi = st.hi := by
  unfold writeSingle
  split <;> rfl

theorem writeSingle_buffer (minLen : Nat) (st : MState) (item : Tok) (sup : Nat) :
    (writeSingle minLen st item sup).buffer = st.buffer := by
  unfold writeSingle
  split <;> rfl

/-- Master invariant of the flat growth recursion: the buffer prefix up
to `lastBufPos` is untouched, every accessed buffer index stays at most
`2 * maxLen - 2`, and every emitted record has between 1 and `maxLen`
items. -/
theorem goSingle_inv (db : Database) (ms : Int) (maxLen minLen : Nat)
    (hminLen : 1 ≤ minLen) :
    ∀ (fuel : Nat) (entries : List (Tok × List PseudoSequence)) (k lastBufPos : Nat)
      (st : MState),
      k ≤ maxLen → lastBufPos + 4 ≤ 2 * k →
      patternLengthInBuffer st.buffer lastBufPos ≤ k - 1 →
      st.hi ≤ 2 * maxLen - 2 →
      (∀ r ∈ st.records, 1 ≤ itemCountOf r ∧ itemCountOf r ≤ maxLen) →
      ((goSingle db ms maxLen minLen fuel k lastBufPos entries st).buffer.take
          (lastBufPos + 1) = st.buffer.take (lastBufPos + 1)) ∧
      ((goSingle db ms maxLen minLen fuel k lastBufPos entries st).hi ≤ 2 * maxLen - 2) ∧
      (∀ r ∈ (goSingle db ms maxLen minLen fuel k lastBufPos entries st).records,
        1 ≤ itemCountOf r ∧ itemCountOf r ≤ maxLen) := by
  intro fuel
  induction fuel with
  | zero => intro entries k lastBufPos st _ _ _ hhi hrec; exact ⟨rfl, hhi, hrec⟩
  | succ n ihf =>
    intro entries
    induction entries with
    | nil => intro k lastBufPos st _ _ _ hhi hrec; exact ⟨rfl, hhi, hrec⟩
    | cons e rest ihe =>
      intro k lastBufPos st hk hlast hpat hhi hrec
      have hstep : goSingle db ms maxLen minLen (n + 1) k lastBufPos (e :: rest) st =
          goSingle db ms maxLen minLen (n + 1) k lastBufPos rest
            (if ms ≤ (e.2.length : Int) then
              if k < maxLen then
                goSingle db ms maxLen minLen n (k + 1) (lastBufPos + 2) (scanSingle db e.2)
                  (writePatternTokens minLen ((st.bset (lastBufPos + 1) (-1)).bset
                    (lastBufPos + 2) e.1) (lastBufPos + 2) e.2)
              else
                writePatternTokens minLen ((st.bset (lastBufPos + 1) (-1)).bset
                  (lastBufPos + 2) e.1) (lastBufPos + 2) e.2
            else st) := rfl
      rw [hstep]
      set stA := (st.bset (lastBufPos + 1) (-1)).bset (lastBufPos + 2) e.1 with hstA
      set stB := writePatternTokens minLen stA (lastBufPos + 2) e.2 with hstB
      have hbufA : stA.buffer = (st.buffer.set (lastBufPos + 1) (-1)).set (lastBufPos + 2) e.1 :=
        rfl
      have hprefA : stA.buffer.take (lastBufPos + 1) = st.buffer.take (lastBufPos + 1) := by
        rw [hbufA, take_set_of_le _ _ _ _ (by omega), take_set_of_le _ _ _ _ (by omega)]
      have hbufB : stB.buffer = stA.buffer := writePatternTokens_buffer ..
      have hpatB : patternLengthInBuffer stB.buffer (lastBufPos + 2) ≤ k := by
        rw [hbufB, hbufA]
        have := patLen_set_two st.buffer lastBufPos e.1
        omega
      have hhiB : stB.hi ≤ 2 * maxLen - 2 := by
        rw [writePatternTokens_hi]
        have : stA.hi = max (max st.hi (lastBufPos + 1)) (lastBufPos + 2) := rfl
        rw [this]
        omega
      have hrecB : ∀ r ∈ stB.records, 1 ≤ itemCountOf r ∧ itemCountOf r ≤ maxLen := by
        apply writePatternTokens_records_bound minLen stA (lastBufPos + 2) e.2 hminLen
        · rw [hbufA]
          have := patLen_set_two st.buffer lastBufPos e.1
          omega
        · rw [hstA, bset_records, bset_records]
          exact hrec
      have hmain : ∀ st1 : MState,
          st1.buffer.take (lastBufPos + 1) = st.buffer.take (lastBufPos + 1) →
          st1.hi ≤ 2 * maxLen - 2 →
          (∀ r ∈ st1.records, 1 ≤ itemCountOf r ∧ itemCountOf r ≤ maxLen) →
          ((goSingle db ms maxLen minLen (n + 1) k lastBufPos rest st1).buffer.take
              (lastBufPos + 1) = st.buffer.take (lastBufPos + 1)) ∧
          ((goSingle db ms maxLen minLen (n + 1) k lastBufPos rest st1).hi ≤
            2 * maxLen - 2) ∧
          (∀ r ∈ (goSingle db ms maxLen minLen (n + 1) k lastBufPos rest st1).records,
            1 ≤ itemCountOf r ∧ itemCountOf r ≤ maxLen) := by
        intro st1 hpref1 hhi1 hrec1
        have hpat1 : patternLengthInBuffer st1.buffer lastBufPos ≤ k - 1 := by
          unfold patternLengthInBuffer
          rw [hpref1]
          exact hpat
        obtain ⟨p1, p2, p3⟩ := ihe k lastBufPos st1 hk hlast hpat1 hhi1 hrec1
        exact ⟨hpref1 ▸ p1, p2, p3⟩
      by_cases hsup : ms ≤ (e.2.length : Int)
      · rw [if_pos hsup]
        by_cases hklt : k < maxLen
        · rw [if_pos hklt]
          obtain ⟨q1, q2, q3⟩ := ihf (scanSingle db e.2) (k + 1) (lastBufPos + 2) stB
            (by omega) (by omega) (by omega) hhiB hrecB
          apply hmain
          · have hc : (goSingle db ms maxLen minLen n (k + 1) (lastBufPos + 2)
                (scanSingle db e.2) stB).buffer.take (lastBufPos + 1) =
                stB.buffer.take (lastBufPos + 1) := by
              have e1 := congrArg (List.take (lastBufPos + 1)) q1
              rwa [List.take_take, List.take_take, Nat.min_eq_left (by omega)] at e1
            rw [hc, hbufB, hprefA]
          · exact q2
          · exact q3
        · rw [if_neg hklt]
          apply hmain
          · rw [hbufB, hprefA]
          · exact hhiB
          · exact hrecB
      · rw [if_neg hsup]
        exact hmain st rfl hhi hrec

/-- Master invariant of the general itemset growth recursion, as
`goSingle_inv`. -/
theorem goMulti_inv (db : Database) (ms : Int) (maxLen minLen : Nat)
    (hminLen : 1 ≤ minLen) :
    ∀ (fuel : Nat) (mapPost mapNorm : AMap) (k lastBufPos : Nat) (st : MState),
      k ≤ maxLen → lastBufPos + 4 ≤ 2 * k →
      patternLengthInBuffer st.buffer lastBufPos ≤ k - 1 →
      st.hi ≤ 2 * maxLen - 2 →
      (∀ r ∈ st.records, 1 ≤ itemCountOf r ∧ itemCountOf r ≤ maxLen) →
      ((goMulti db ms maxLen minLen fuel k lastBufPos mapPost mapNorm st).buffer.take
          (lastBufPos + 1) = st.buffer.take (lastBufPos + 1)) ∧
      ((goMulti db ms maxLen minLen fuel k lastBufPos mapPost mapNorm st).hi ≤
        2 * maxLen - 2) ∧
      (∀ r ∈ (goMulti db ms maxLen minLen fuel k lastBufPos mapPost mapNorm st).records,
        1 ≤ itemCountOf r ∧ itemCountOf r ≤ maxLen) := by
  intro fuel
  induction fuel with
  | zero => intro mapPost mapNorm k lastBufPos st _ _ _ hhi hrec; exact ⟨rfl, hhi, hrec⟩
  | succ n ihf =>
    have hfoldPost : ∀ (l : AMap) (k lastBufPos : Nat) (st : MState),
        k ≤ maxLen → lastBufPos + 4 ≤ 2 * k →
        patternLengthInBuffer st.buffer lastBufPos ≤ k - 1 →
        st.hi ≤ 2 * maxLen - 2 →
        (∀ r ∈ st.records, 1 ≤ itemCountOf r ∧ itemCountOf r ≤ maxLen) →
        (((l.foldl (fun st e =>
            if ms ≤ (e.2.length : Int) then
              let newPos := lastBufPos + 1
              let stA := st.bset newPos e.1
              let stB := writePatternTokens minLen stA newPos e.2
              if k < maxLen then
                let lv := multiScanLevel db newPos stB e.2
                goMulti db ms maxLen minLen n (k + 1) newPos lv.1 lv.2.1 lv.2.2
              else stB
            else st) st).buffer.take (lastBufPos + 1) =
          st.buffer.take (lastBufPos + 1)) ∧
         ((l.foldl (fun st e =>
            if ms ≤ (e.2.length : Int) then
              let newPos := lastBufPos + 1
              let stA := st.bset newPos e.1
              let stB := writePatternTokens minLen stA newPos e.2
              if k < maxLen then
                let lv := multiScanLevel db newPos stB e.2
                goMulti db ms maxLen minLen n (k + 1) newPos lv.1 lv.2.1 lv.2.2
              else stB
            else st) st).hi ≤ 2 * maxLen - 2) ∧
         (∀ r ∈ (l.foldl (fun st e =>
            if ms ≤ (e.2.length : Int) then
              let newPos := lastBufPos + 1
              let stA := st.bset newPos e.1
              let stB := writePatternTokens minLen stA newPos e.2
              if k < maxLen then
                let lv := multiScanLevel db newPos stB e.2
                goMulti db ms maxLen minLen n (k + 1) newPos lv.1 lv.2.1 lv.2.2
              else stB
            else st) st).records,
            1 ≤ itemCountOf r ∧ itemCountOf r ≤ maxLen)) := by
      intro l
      induction l with
      | nil => intro k lastBufPos st _ _ _ hhi hrec; exact ⟨rfl, hhi, hrec⟩
      | cons e rest ihe =>
        intro k lastBufPos st hk hlast hpat hhi hrec
        rw [List.foldl_cons]
        have hmain : ∀ st1 : MState,
            st1.buffer.take (lastBufPos + 1) = st.buffer.take (lastBufPos + 1) →
            st1.hi ≤ 2 * maxLen - 2 →
            (∀ r ∈ st1.records, 1 ≤ itemCountOf r ∧ itemCountOf r ≤ maxLen) →
            ((rest.foldl (fun st e =>
                if ms ≤ (e.2.length : Int) then
                  let newPos := lastBufPos + 1
                  let stA := st.bset newPos e.1
                  let stB := writePatternTokens minLen stA newPos e.2
                  if k < maxLen then
                    let lv := multiScanLevel db newPos stB e.2
                    goMulti db ms maxLen minLen n (k + 1) newPos lv.1 lv.2.1 lv.2.2
                  else stB
                else st) st1).buffer.take (lastBufPos + 1) =
              st.buffer.take (lastBufPos + 1)) ∧
            ((rest.foldl (fun st e =>
                if ms ≤ (e.2.length : Int) then
                  let newPos := lastBufPos + 1
                  let stA := st.bset newPos e.1
                  let stB := writePatternTokens minLen stA newPos e.2
                  if k < maxLen then
                    let lv := multiScanLevel db newPos stB e.2
                    goMulti db ms maxLen minLen n (k + 1) newPos lv.1 lv.2.1 lv.2.2
                  else stB
                else st) st1).hi ≤ 2 * maxLen - 2) ∧
            (∀ r ∈ (rest.foldl (fun st e =>
                if ms ≤ (e.2.length : Int) then
                  let newPos := lastBufPos + 1
                  let stA := st.bset newPos e.1
                  let stB := writePatternTokens minLen stA newPos e.2
                  if k < maxLen then
                    let lv := multiScanLevel db newPos stB e.2
                    goMulti db ms maxLen minLen n (k + 1) newPos lv.1 lv.2.1 lv.2.2
                  else stB
                else st) st1).records,
              1 ≤ itemCountOf r ∧ itemCountOf r ≤ maxLen) := by
          intro st1 hpref1 hhi1 hrec1
          have hpat1 : patternLengthInBuffer st1.buffer lastBufPos ≤ k - 1 := by
            unfold patternLengthInBuffer
            rw [hpref1]
            exact hpat
          obtain ⟨p1, p2, p3⟩ := ihe k lastBufPos st1 hk hlast hpat1 hhi1 hrec1
          exact ⟨hpref1 ▸ p1, p2, p3⟩
        set stA := st.bset (lastBufPos + 1) e.1 with hstA
        set stB := writePatternTokens minLen stA (lastBufPos + 1) e.2 with hstB
        have hbufA : stA.buffer = st.buffer.set (lastBufPos + 1) e.1 := rfl
        have hprefA : stA.buffer.take (lastBufPos + 1) =
            st.buffer.take (lastBufPos + 1) := by
          rw [hbufA, take_set_of_le _ _ _ _ (by omega)]
        have hbufB : stB.buffer = stA.buffer := writePatternTokens_buffer ..
        have hhiB : stB.hi ≤ 2 * maxLen - 2 := by
          rw [hstB, writePatternTokens_hi]
          have : stA.hi = max st.hi (lastBufPos + 1) := rfl
          rw [this]
          omega
        have hrecB : ∀ r ∈ stB.records, 1 ≤ itemCountOf r ∧ itemCountOf r ≤ maxLen := by
          rw [hstB]
          apply writePatternTokens_records_bound minLen stA (lastBufPos + 1) e.2 hminLen
          · rw [hbufA]
            have := patLen_set_one st.buffer lastBufPos e.1
            omega
          · rw [hstA, bset_records]
            exact hrec
        have hh : ((if ms ≤ (e.2.length : Int) then
              if k < maxLen then
                goMulti db ms maxLen minLen n (k + 1) (lastBufPos + 1)
                  (multiScanLevel db (lastBufPos + 1) stB e.2).1
                  (multiScanLevel db (lastBufPos + 1) stB e.2).2.1
                  (multiScanLevel db (lastBufPos + 1) stB e.2).2.2
              else stB
            else st).buffer.take (lastBufPos + 1) = st.buffer.take (lastBufPos + 1)) ∧
            ((if ms ≤ (e.2.length : Int) then
              if k < maxLen then
                goMulti db ms maxLen minLen n (k + 1) (lastBufPos + 1)
                  (multiScanLevel db (lastBufPos + 1) stB e.2).1
                  (multiScanLevel db (lastBufPos + 1) stB e.2).2.1
                  (multiScanLevel db (lastBufPos + 1) stB e.2).2.2
              else stB
            else st).hi ≤ 2 * maxLen - 2) ∧
            (∀ r ∈ (if ms ≤ (e.2.length : Int) then
              if k < maxLen then
                goMulti db ms maxLen minLen n (k + 1) (lastBufPos + 1)
                  (multiScanLevel db (lastBufPos + 1) stB e.2).1
                  (multiScanLevel db (lastBufPos + 1) stB e.2).2.1
                  (multiScanLevel db (lastBufPos + 1) stB e.2).2.2
              else stB
            else st).records, 1 ≤ itemCountOf r ∧ itemCountOf r ≤ maxLen) := by
          by_cases hsup : ms ≤ (e.2.length : Int)
          · rw [if_pos hsup]
            by_cases hklt : k < maxLen
            · rw [if_pos hklt]
              rw [multiScanLevel_eq]
              set stC := (stB.touch (lastBufPos + 1 - 1)).touch
                (scanMultiDb db stB.buffer (lastBufPos + 1)
                  (firstPosLastItemsetOf stB.buffer (lastBufPos + 1)) e.2).2.2 with hstC
              have hbufC : stC.buffer = stB.buffer := rfl
              have hhiC : stC.hi ≤ 2 * maxLen - 2 := by
                have hhiR := scanMultiDb_hiR db stB.buffer (lastBufPos + 1)
                  (firstPosLastItemsetOf stB.buffer (lastBufPos + 1))
                  (firstPosLastItemsetOf_le stB.buffer (lastBufPos + 1)) e.2
                have : stC.hi = max (max stB.hi (lastBufPos + 1 - 1))
                    (scanMultiDb db stB.buffer (lastBufPos + 1)
                      (firstPosLastItemsetOf stB.buffer (lastBufPos + 1)) e.2).2.2 := rfl
                rw [this]
                omega
              have hrecC : ∀ r ∈ stC.records, 1 ≤ itemCountOf r ∧ itemCountOf r ≤ maxLen := by
                rw [hstC, touch_records, touch_records]
                exact hrecB
              have hpatC : patternLengthInBuffer stC.buffer (lastBufPos + 1) ≤ k := by
                rw [hbufC, hbufB, hbufA]
                have := patLen_set_one st.buffer lastBufPos e.1
                omega
              obtain ⟨q1, q2, q3⟩ := ihf
                (scanMultiDb db stB.buffer (lastBufPos + 1)
                  (firstPosLastItemsetOf stB.buffer (lastBufPos + 1)) e.2).1
                (scanMultiDb db stB.buffer (lastBufPos + 1)
                  (firstPosLastItemsetOf stB.buffer (lastBufPos + 1)) e.2).2.1
                (k + 1) (lastBufPos + 1) stC (by omega) (by omega)
                (by omega) hhiC hrecC
              refine ⟨?_, q2, q3⟩
              have e1 := congrArg (List.take (lastBufPos + 1)) q1
              rw [List.take_take, List.take_take, Nat.min_eq_left (by omega)] at e1
              rw [e1, hbufC, hbufB, hprefA]
            · rw [if_neg hklt]
              exact ⟨by rw [hbufB, hprefA], hhiB, hrecB⟩
          · rw [if_neg hsup]
            exact ⟨rfl, hhi, hrec⟩
        exact hmain _ hh.1 hh.2.1 hh.2.2
    have hfoldNorm : ∀ (l : AMap) (k lastBufPos : Nat) (st : MState),
        k ≤ maxLen → lastBufPos + 4 ≤ 2 * k →
        patternLengthInBuffer st.buffer lastBufPos ≤ k - 1 →
        st.hi ≤ 2 * maxLen - 2 →
        (∀ r ∈ st.records, 1 ≤ itemCountOf r ∧ itemCountOf r ≤ maxLen) →
        (((l.foldl (fun st e =>
            if ms ≤ (e.2.length : Int) then
              let newPos := lastBufPos + 1
              let stA := (st.bset newPos (-1)).bset (newPos + 1) e.1
              let stB := writePatternTokens minLen stA (newPos + 1) e.2
              if k < maxLen then
                let lv := multiScanLevel db (newPos + 1) stB e.2
                goMulti db ms maxLen minLen n (k + 1) (newPos + 1) lv.1 lv.2.1 lv.2.2
              else stB
            else st) st).buffer.take (lastBufPos + 1) =
          st.buffer.take (lastBufPos + 1)) ∧
         ((l.foldl (fun st e =>
            if ms ≤ (e.2.length : Int) then
              let newPos := lastBufPos + 1
              let stA := (st.bset newPos (-1)).bset (newPos + 1) e.1
              let stB := writePatternTokens minLen stA (newPos + 1) e.2
              if k < maxLen then
                let lv := multiScanLevel db (newPos + 1) stB e.2
                goMulti db ms maxLen minLen n (k + 1) (newPos + 1) lv.1 lv.2.1 lv.2.2
              else stB
            else st) st).hi ≤ 2 * maxLen - 2) ∧
         (∀ r ∈ (l.foldl (fun st e =>
            if ms ≤ (e.2.length : Int) then
              let newPos := lastBufPos + 1
              let stA := (st.bset newPos (-1)).bset (newPos + 1) e.1
              let stB := writePatternTokens minLen stA (newPos + 1) e.2
              if k < maxLen then
                let lv := multiScanLevel db (newPos + 1) stB e.2
                goMulti db ms maxLen minLen n (k + 1) (newPos + 1) lv.1 lv.2.1 lv.2.2
              else stB
            else st) st).records,
            1 ≤ itemCountOf r ∧ itemCountOf r ≤ maxLen)) := by
      intro l
      induction l with
      | nil => intro k lastBufPos st _ _ _ hhi hrec; exact ⟨rfl, hhi, hrec⟩
      | cons e rest ihe =>
        intro k lastBufPos st hk hlast hpat hhi hrec
        rw [List.foldl_cons]
        have hmain : ∀ st1 : MState,
            st1.buffer.take (lastBufPos + 1) = st.buffer.take (lastBufPos + 1) →
            st1.hi ≤ 2 * maxLen - 2 →
            (∀ r ∈ st1.records, 1 ≤ itemCountOf r ∧ itemCountOf r ≤ maxLen) →
            ((rest.foldl (fun st e =>
                if ms ≤ (e.2.length : Int) then
                  let newPos := lastBufPos + 1
                  let stA := (st.bset newPos (-1)).bset (newPos + 1) e.1
                  let stB := writePatternTokens minLen stA (newPos + 1) e.2
                  if k < maxLen then
                    let lv := multiScanLevel db (newPos + 1) stB e.2
                    goMulti db ms maxLen minLen n (k + 1) (newPos + 1) lv.1 lv.2.1 lv.2.2
                  else stB
                else st) st1).buffer.take (lastBufPos + 1) =
              st.buffer.take (lastBufPos + 1)) ∧
            ((rest.foldl (fun st e =>
                if ms ≤ (e.2.length : Int) then
                  let newPos := lastBufPos + 1
                  let stA := (st.bset newPos (-1)).bset (newPos + 1) e.1
                  let stB := writePatternTokens minLen stA (newPos + 1) e.2
                  if k < maxLen then
                    let lv := multiScanLevel db (newPos + 1) stB e.2
                    goMulti db ms maxLen minLen n (k + 1) (newPos + 1) lv.1 lv.2.1 lv.2.2
                  else stB
                else st) st1).hi ≤ 2 * maxLen - 2) ∧
            (∀ r ∈ (rest.foldl (fun st e =>
                if ms ≤ (e.2.length : Int) then
                  let newPos := lastBufPos + 1
                  let stA := (st.bset newPos (-1)).bset (newPos + 1) e.1
                  let stB := writePatternTokens minLen stA (newPos + 1) e.2
                  if k < maxLen then
                    let lv := multiScanLevel db (newPos + 1) stB e.2
                    goMulti db ms maxLen minLen n (k + 1) (newPos + 1) lv.1 lv.2.1 lv.2.2
                  else stB
                else st) st1).records,
              1 ≤ itemCountOf r ∧ itemCountOf r ≤ maxLen) := by
          intro st1 hpref1 hhi1 hrec1
          have hpat1 : patternLengthInBuffer st1.buffer lastBufPos ≤ k - 1 := by
            unfold patternLengthInBuffer
            rw [hpref1]
            exact hpat
          obtain ⟨p1, p2, p3⟩ := ihe k lastBufPos st1 hk hlast hpat1 hhi1 hrec1
          exact ⟨hpref1 ▸ p1, p2, p3⟩
        set stA := (st.bset (lastBufPos + 1) (-1)).bset (lastBufPos + 1 + 1) e.1 with hstA
        set stB := writePatternTokens minLen stA (lastBufPos + 1 + 1) e.2 with hstB
        have hbufA : stA.buffer =
            (st.buffer.set (lastBufPos + 1) (-1)).set (lastBufPos + 1 + 1) e.1 := rfl
        have hprefA : stA.buffer.take (lastBufPos + 1) =
            st.buffer.take (lastBufPos + 1) := by
          rw [hbufA, take_set_of_le _ _ _ _ (by omega), take_set_of_le _ _ _ _ (by omega)]
        have hbufB : stB.buffer = stA.buffer := writePatternTokens_buffer ..
        have hhiB : stB.hi ≤ 2 * maxLen - 2 := by
          rw [hstB, writePatternTokens_hi]
          have : stA.hi = max (max st.hi (lastBufPos + 1)) (lastBufPos + 1 + 1) := rfl
          rw [this]
          omega
        have hrecB : ∀ r ∈ stB.records, 1 ≤ itemCountOf r ∧ itemCountOf r ≤ maxLen := by
          rw [hstB]
          apply writePatternTokens_records_bound minLen stA (lastBufPos + 1 + 1) e.2 hminLen
          · rw [hbufA]
            have h2 : lastBufPos + 1 + 1 = lastBufPos + 2 := rfl
            rw [h2]
            have := patLen_set_two st.buffer lastBufPos e.1
            omega
          · rw [hstA, bset_records, bset_records]
            exact hrec
        have hh : ((if ms ≤ (e.2.length : Int) then
              if k < maxLen then
                goMulti db ms maxLen minLen n (k + 1) (lastBufPos + 1 + 1)
                  (multiScanLevel db (lastBufPos + 1 + 1) stB e.2).1
                  (multiScanLevel db (lastBufPos + 1 + 1) stB e.2).2.1
                  (multiScanLevel db (lastBufPos + 1 + 1) stB e.2).2.2
              else stB
            else st).buffer.take (lastBufPos + 1) = st.buffer.take (lastBufPos + 1)) ∧
            ((if ms ≤ (e.2.length : Int) then
              if k < maxLen then
                goMulti db ms maxLen minLen n (k + 1) (lastBufPos + 1 + 1)
                  (multiScanLevel db (lastBufPos + 1 + 1) stB e.2).1
                  (multiScanLevel db (lastBufPos + 1 + 1) stB e.2).2.1
                  (multiScanLevel db (lastBufPos + 1 + 1) stB e.2).2.2
              else stB
            else st).hi ≤ 2 * maxLen - 2) ∧
            (∀ r ∈ (if ms ≤ (e.2.length : Int) then
              if k < maxLen then
                goMulti db ms maxLen minLen n (k + 1) (lastBufPos + 1 + 1)
                  (multiScanLevel db (lastBufPos + 1 + 1) stB e.2).1
                  (multiScanLevel db (lastBufPos + 1 + 1) stB e.2).2.1
                  (multiScanLevel db (lastBufPos + 1 + 1) stB e.2).2.2
              else stB
            else st).records, 1 ≤ itemCountOf r ∧ itemCountOf r ≤ maxLen) := by
          by_cases hsup : ms ≤ (e.2.length : Int)
          · rw [if_pos hsup]
            by_cases hklt : k < maxLen
            · rw [if_pos hklt]
              rw [multiScanLevel_eq]
              set stC := (stB.touch (lastBufPos + 1 + 1 - 1)).touch
                (scanMultiDb db stB.buffer (lastBufPos + 1 + 1)
                  (firstPosLastItemsetOf stB.buffer (lastBufPos + 1 + 1)) e.2).2.2 with hstC
              have hbufC : stC.buffer = stB.buffer := rfl
              have hhiC : stC.hi ≤ 2 * maxLen - 2 := by
                have hhiR := scanMultiDb_hiR db stB.buffer (lastBufPos + 1 + 1)
                  (firstPosLastItemsetOf stB.buffer (lastBufPos + 1 + 1))
                  (firstPosLastItemsetOf_le stB.buffer (lastBufPos + 1 + 1)) e.2
                have : stC.hi = max (max stB.hi (lastBufPos + 1 + 1 - 1))
                    (scanMultiDb db stB.buffer (lastBufPos + 1 + 1)
                      (firstPosLastItemsetOf stB.buffer (lastBufPos + 1 + 1)) e.2).2.2 := rfl
                rw [this]
                omega
              have hrecC : ∀ r ∈ stC.records,
                  1 ≤ itemCountOf r ∧ itemCountOf r ≤ maxLen := by
                rw [hstC, touch_records, touch_records]
                exact hrecB
              have hpatC : patternLengthInBuffer stC.buffer (lastBufPos + 1 + 1) ≤ k := by
                rw [hbufC, hbufB, hbufA]
                have h2 : lastBufPos + 1 + 1 = lastBufPos + 2 := rfl
                rw [h2]
                have := patLen_set_two st.buffer lastBufPos e.1
                omega
              obtain ⟨q1, q2, q3⟩ := ihf
                (scanMultiDb db stB.buffer (lastBufPos + 1 + 1)
                  (firstPosLastItemsetOf stB.buffer (lastBufPos + 1 + 1)) e.2).1
                (scanMultiDb db stB.buffer (lastBufPos + 1 + 1)
                  (firstPosLastItemsetOf stB.buffer (lastBufPos + 1 + 1)) e.2).2.1
                (k + 1) (lastBufPos + 1 + 1) stC (by omega) (by omega)
                (by omega) hhiC hrecC
              refine ⟨?_, q2, q3⟩
              have e1 := congrArg (List.take (lastBufPos + 1)) q1
              rw [List.take_take, List.take_take, Nat.min_eq_left (by omega)] at e1
              rw [e1, hbufC, hbufB, hprefA]
            · rw [if_neg hklt]
              exact ⟨by rw [hbufB, hprefA], hhiB, hrecB⟩
          · rw [if_neg hsup]
            exact ⟨rfl, hhi, hrec⟩
        exact hmain _ hh.1 hh.2.1 hh.2.2
    intro mapPost mapNorm k lastBufPos st hk hlast hpat hhi hrec
    obtain ⟨p1, p2, p3⟩ := hfoldPost mapPost k lastBufPos st hk hlast hpat hhi hrec
    have hpat1 : patternLengthInBuffer
        (mapPost.foldl (fun st e =>
          if ms ≤ (e.2.length : Int) then
            let newPos := lastBufPos + 1
            let stA := st.bset newPos e.1
            let stB := writePatternTokens minLen stA newPos e.2
            if k < maxLen then
              let lv := multiScanLevel db newPos stB e.2
              goMulti db ms maxLen minLen n (k + 1) newPos lv.1 lv.2.1 lv.2.2
            else stB
          else st) st).buffer lastBufPos ≤ k - 1 := by
      unfold patternLengthInBuffer
      rw [p1]
      exact hpat
    obtain ⟨q1, q2, q3⟩ := hfoldNorm mapNorm k lastBufPos _ hk hlast hpat1 p2 p3
    exact ⟨q1.trans p1, q2, q3⟩

/-- Top-level invariant of the flat path, over the frequent-item fold:
accessed buffer indices stay at most `2 * maxLen - 2` and every emitted
record has between 1 and `maxLen` items. -/
theorem prefixspanSingle_inv_fold (db : Database) (ms : Int) (maxLen minLen : Nat)
    (hminLen : 1 ≤ minLen) (hmaxLen : 1 ≤ maxLen) :
    ∀ (l : SidMap) (st : MState),
      st.hi ≤ 2 * maxLen - 2 →
      (∀ r ∈ st.records, 1 ≤ itemCountOf r ∧ itemCountOf r ≤ maxLen) →
      ((l.foldl (fun st e =>
          if ms ≤ (e.2.length : Int) then
            let st := writeSingle minLen st e.1 e.2.length
            if 1 < maxLen then
              let st := st.bset 0 e.1
              recursionSingleItems db ms maxLen minLen maxLen
                (buildProjSingle db e.1 e.2) 2 0 st
            else st
          else st) st).hi ≤ 2 * maxLen - 2) ∧
      (∀ r ∈ (l.foldl (fun st e =>
          if ms ≤ (e.2.length : Int) then
            let st := writeSingle minLen st e.1 e.2.length
            if 1 < maxLen then
              let st := st.bset 0 e.1
              recursionSingleItems db ms maxLen minLen maxLen
                (buildProjSingle db e.1 e.2) 2 0 st
            else st
          else st) st).records,
        1 ≤ itemCountOf r ∧ itemCountOf r ≤ maxLen) := by
  intro l
  induction l with
  | nil => intro st hhi hrec; exact ⟨hhi, hrec⟩
  | cons e rest ihe =>
    intro st hhi hrec
    rw [List.foldl_cons]
    have hh : ((if ms ≤ (e.2.length : Int) then
          (if 1 < maxLen then
            recursionSingleItems db ms maxLen minLen maxLen
              (buildProjSingle db e.1 e.2) 2 0
              ((writeSingle minLen st e.1 e.2.length).bset 0 e.1)
          else writeSingle minLen st e.1 e.2.length)
        else st).hi ≤ 2 * maxLen - 2) ∧
        (∀ r ∈ (if ms ≤ (e.2.length : Int) then
          (if 1 < maxLen then
            recursionSingleItems db ms maxLen minLen maxLen
              (buildProjSingle db e.1 e.2) 2 0
              ((writeSingle minLen st e.1 e.2.length).bset 0 e.1)
          else writeSingle minLen st e.1 e.2.length)
        else st).records, 1 ≤ itemCountOf r ∧ itemCountOf r ≤ maxLen) := by
      by_cases hsup : ms ≤ (e.2.length : Int)
      · rw [if_pos hsup]
        have hrecW := writeSingle_records_bound minLen st e.1 e.2.length hmaxLen hrec
        have hhiW : (writeSingle minLen st e.1 e.2.length).hi ≤ 2 * maxLen - 2 := by
          rw [writeSingle_hi]
          exact hhi
        by_cases hmax : 1 < maxLen
        · rw [if_pos hmax]
          set stS := (writeSingle minLen st e.1 e.2.length).bset 0 e.1 with hstS
          have hhiS : stS.hi ≤ 2 * maxLen - 2 := by
            rw [hstS, bset_hi, writeSingle_hi]
            omega
          have hrecS : ∀ r ∈ stS.records, 1 ≤ itemCountOf r ∧ itemCountOf r ≤ maxLen := by
            rw [hstS, bset_records]
            exact hrecW
          have hpatS : patternLengthInBuffer stS.buffer 0 ≤ 2 - 1 := by
            have := patternLengthInBuffer_zero_le stS.buffer
            omega
          obtain ⟨q1, q2, q3⟩ := goSingle_inv db ms maxLen minLen hminLen maxLen
            (scanSingle db (buildProjSingle db e.1 e.2)) 2 0 stS (by omega) (by omega)
            hpatS hhiS hrecS
          exact ⟨q2, q3⟩
        · rw [if_neg hmax]
          exact ⟨hhiW, hrecW⟩
      · rw [if_neg hsup]
        exact ⟨hhi, hrec⟩
    exact ihe _ hh.1 hh.2

/-- Top-level invariant of the flat path. -/
theorem prefixspanSingle_inv (m : SidMap) (ms : Int) (maxLen minLen : Nat)
    (hminLen : 1 ≤ minLen) (hmaxLen : 1 ≤ maxLen) (db0 : List (List Tok)) :
    ((prefixspanSingle m ms maxLen minLen db0).hi ≤ 2 * maxLen - 2) ∧
    (∀ r ∈ (prefixspanSingle m ms maxLen minLen db0).records,
      1 ≤ itemCountOf r ∧ itemCountOf r ≤ maxLen) :=
  prefixspanSingle_inv_fold
    (db0.map (pruneSeqSingle
      (fun tok => decide (ms ≤ ((sidMapGet m tok).length : Int)))))
    ms maxLen minLen hminLen hmaxLen m initState (Nat.zero_le _)
    (fun r hr => nomatch hr)

/-- Top-level invariant of the general itemset path, over the
frequent-item fold: accessed buffer indices stay at most
`2 * maxLen - 2` and every emitted record has between 1 and `maxLen`
items. -/
theorem prefixspanMulti_inv_fold (db : Database) (ms : Int) (maxLen minLen : Nat)
    (hminLen : 1 ≤ minLen) (hmaxLen : 1 ≤ maxLen) :
    ∀ (l : SidMap) (st : MState),
      st.hi ≤ 2 * maxLen - 2 →
      (∀ r ∈ st.records, 1 ≤ itemCountOf r ∧ itemCountOf r ≤ maxLen) →
      ((l.foldl (fun st e =>
          if ms ≤ (e.2.length : Int) then
            let st := writeSingle minLen st e.1 e.2.length
            if 1 < maxLen then
              let st := st.bset 0 e.1
              recursionMulti db ms maxLen minLen maxLen
                (buildProjMulti db e.1 e.2) 2 0 st
            else st
          else st) st).hi ≤ 2 * maxLen - 2) ∧
      (∀ r ∈ (l.foldl (fun st e =>
          if ms ≤ (e.2.length : Int) then
            let st := writeSingle minLen st e.1 e.2.length
            if 1 < maxLen then
              let st := st.bset 0 e.1
              recursionMulti db ms maxLen minLen maxLen
                (buildProjMulti db e.1 e.2) 2 0 st
            else st
          else st) st).records,
        1 ≤ itemCountOf r ∧ itemCountOf r ≤ maxLen) := by
  intro l
  induction l with
  | nil => intro st hhi hrec; exact ⟨hhi, hrec⟩
  | cons e rest ihe =>
    intro st hhi hrec
    rw [List.foldl_cons]
    have hh : ((if ms ≤ (e.2.length : Int) then
          (if 1 < maxLen then
            recursionMulti db ms maxLen minLen maxLen
              (buildProjMulti db e.1 e.2) 2 0
              ((writeSingle minLen st e.1 e.2.length).bset 0 e.1)
          else writeSingle minLen st e.1 e.2.length)
        else st).hi ≤ 2 * maxLen - 2) ∧
        (∀ r ∈ (if ms ≤ (e.2.length : Int) then
          (if 1 < maxLen then
            recursionMulti db ms maxLen minLen maxLen
              (buildProjMulti db e.1 e.2) 2 0
              ((writeSingle minLen st e.1 e.2.length).bset 0 e.1)
          else writeSingle minLen st e.1 e.2.length)
        else st).records, 1 ≤ itemCountOf r ∧ itemCountOf r ≤ maxLen) := by
      by_cases hsup : ms ≤ (e.2.length : Int)
      · rw [if_pos hsup]
        have hrecW := writeSingle_records_bound minLen st e.1 e.2.length hmaxLen hrec
        have hhiW : (writeSingle minLen st e.1 e.2.length).hi ≤ 2 * maxLen - 2 := by
          rw [writeSingle_hi]
          exact hhi
        by_cases hmax : 1 < maxLen
        · rw [if_pos hmax]
          set stS := (writeSingle minLen st e.1 e.2.length).bset 0 e.1 with hstS
          set X := buildProjMulti db e.1 e.2 with hX
          have hhiS : stS.hi ≤ 2 * maxLen - 2 := by
            rw [hstS, bset_hi, writeSingle_hi]
            omega
          have hrecS : ∀ r ∈ stS.records, 1 ≤ itemCountOf r ∧ itemCountOf r ≤ maxLen := by
            rw [hstS, bset_records]
            exact hrecW
          have h22 : (multiScanLevel db 0 stS X).2.2 =
              (stS.touch (0 - 1)).touch
                (scanMultiDb db stS.buffer 0
                  (firstPosLastItemsetOf stS.buffer 0) X).2.2 := rfl
          have hhiL : (multiScanLevel db 0 stS X).2.2.hi ≤ 2 * maxLen - 2 := by
            rw [h22, touch_hi, touch_hi]
            have hR := scanMultiDb_hiR db stS.buffer 0
              (firstPosLastItemsetOf stS.buffer 0)
              (firstPosLastItemsetOf_le stS.buffer 0) X
            omega
          have hrecL : ∀ r ∈ (multiScanLevel db 0 stS X).2.2.records,
              1 ≤ itemCountOf r ∧ itemCountOf r ≤ maxLen := by
            rw [h22, touch_records, touch_records]
            exact hrecS
          have hpatL : patternLengthInBuffer (multiScanLevel db 0 stS X).2.2.buffer 0 ≤
              2 - 1 := by
            have := patternLengthInBuffer_zero_le (multiScanLevel db 0 stS X).2.2.buffer
            omega
          obtain ⟨q1, q2, q3⟩ := goMulti_inv db ms maxLen minLen hminLen maxLen
            (multiScanLevel db 0 stS X).1 (multiScanLevel db 0 stS X).2.1 2 0
            (multiScanLevel db 0 stS X).2.2 (by omega) (by omega) hpatL hhiL hrecL
          exact ⟨q2, q3⟩
        · rw [if_neg hmax]
          exact ⟨hhiW, hrecW⟩
      · rw [if_neg hsup]
        exact ⟨hhi, hrec⟩
    exact ihe _ hh.1 hh.2

/-- Top-level invariant of the general itemset path. -/
theorem prefixspanMulti_inv (m : SidMap) (ms : Int) (maxLen minLen : Nat)
    (hminLen : 1 ≤ minLen) (hmaxLen : 1 ≤ maxLen) (db0 : List (List Tok)) :
    ((prefixspanMulti m ms maxLen minLen db0).hi ≤ 2 * maxLen - 2) ∧
    (∀ r ∈ (prefixspanMulti m ms maxLen minLen db0).records,
      1 ≤ itemCountOf r ∧ itemCountOf r ≤ maxLen) :=
  prefixspanMulti_inv_fold
    (db0.map (pruneSeqMulti
      (fun tok => decide (ms ≤ ((sidMapGet m tok).length : Int)))))
    ms maxLen minLen hminLen hmaxLen m initState (Nat.zero_le _)
    (fun r hr => nomatch hr)

/-- Run-level master invariant: whichever growth path the multi-item
flag selects, every accessed buffer index stays at most
`2 * maxLen - 2` and every emitted record has between 1 and `maxLen`
items. -/
theorem run_inv (db0 : List (List Tok)) (s : ℚ) (maxLen minLen : Nat)
    (hmaxLen : 1 ≤ maxLen) :
    ((run db0 s maxLen minLen).hi ≤ 2 * maxLen - 2) ∧
    (∀ r ∈ (run db0 s maxLen minLen).records,
      1 ≤ itemCountOf r ∧ itemCountOf r ≤ maxLen) := by
  have hminLen : 1 ≤ max 1 minLen := le_max_left 1 minLen
  by_cases hflag : (findItems db0).2 = true
  · rw [run_multi_eq db0 s maxLen minLen (minsupAbsOf s db0.length) hflag rfl]
    exact prefixspanMulti_inv _ _ _ _ hminLen hmaxLen db0
  · rw [run_single_eq db0 s maxLen minLen (minsupAbsOf s db0.length)
      (by simpa using hflag) rfl]
    exact prefixspanSingle_inv _ _ _ _ hminLen hmaxLen db0

/-- C8.  Maximum-length cap: for every run with
`maximum_pattern_length ≥ 1`, each emitted pattern has item count at
most `maximum_pattern_length`, because recursion to a deeper level is
gated by `k < maximum_pattern_length`; in the boundary case
`maximum_pattern_length = 1` every emitted pattern has item count
exactly 1 (only length-1 patterns, no recursive growth). -/
theorem max_length_cap (db0 : List (List Tok)) (s : ℚ) (maxLen minLen : Nat)
    (hmaxLen : 1 ≤ maxLen) :
    (∀ r ∈ (run db0 s maxLen minLen).records, itemCountOf r ≤ maxLen) ∧
    (maxLen = 1 → ∀ r ∈ (run db0 s maxLen minLen).records, itemCountOf r = 1) := by
  obtain ⟨-, h⟩ := run_inv db0 s maxLen minLen hmaxLen
  refine ⟨fun r hr => (h r hr).2, fun h1 r hr => ?_⟩
  have := h r hr
  omega

/-- Witness for C8 at `maximum_pattern_length = 1` on a multi-item
database. -/
theorem max_length_cap_witness :
    1 ≤ 1 ∧
    ((∀ r ∈ (run [[1, 2, -1, 3, -2]] 1 1 1).records, itemCountOf r ≤ 1) ∧
     (1 = 1 → ∀ r ∈ (run [[1, 2, -1, 3, -2]] 1 1 1).records, itemCountOf r = 1)) :=
  ⟨by decide, max_length_cap [[1, 2, -1, 3, -2]] 1 1 1 (by decide)⟩

/-- C10.  Scratch-buffer bounds safety: for every run with
`1 ≤ maximum_pattern_length ≤ 1000`, the instrumentation field `hi` —
an upper bound on every index of the 2000-slot scratch buffer accessed
by the run, covering the two writes per level at `last_buf_pos + 1` and
`last_buf_pos + 2` and the reads through the match cursor at indices at
most `last_buf_pos` — stays at most `2 * maximum_pattern_length - 2`,
hence strictly below 2000: every buffer access is in bounds and the
out-of-bounds branch is unreachable. -/
theorem buffer_access_bounds (db0 : List (List Tok)) (s : ℚ) (maxLen minLen : Nat)
    (hmaxLen : 1 ≤ maxLen) (hcap : maxLen ≤ 1000) :
    (run db0 s maxLen minLen).hi ≤ 2 * maxLen - 2 ∧
    (run db0 s maxLen minLen).hi < 2000 := by
  obtain ⟨h, -⟩ := run_inv db0 s maxLen minLen hmaxLen
  exact ⟨h, by omega⟩

/-- Witness for C10 on a multi-item database at
`maximum_pattern_length = 3`. -/
theorem buffer_access_bounds_witness :
    (1 ≤ 3 ∧ 3 ≤ 1000) ∧
    ((run [[1, 2, -1, 3, -2]] 1 3 1).hi ≤ 2 * 3 - 2 ∧
     (run [[1, 2, -1, 3, -2]] 1 3 1).hi < 2000) :=
  ⟨by decide, buffer_access_bounds [[1, 2, -1, 3, -2]] 1 3 1 (by decide) (by decide)⟩

end PrefixSpanModel
